import Mathlib

/-!
Verification of the restaurant discrete-event simulation engine
(`experiments/simulation.py` and its data model) against its natural-language
specification.  Python functions are shallowly embedded as Lean functions;
the mutable dispatch loops are embedded as labelled transition systems, and
the spec invariants are proved by induction over reachability.
-/

namespace RestaurantSim

/-! ## Apportionment: `RestaurantSimulation._distribute_cooks_to_stations`

Stations are identified by their position in the declaration-order list
returned by `SingleDishParameters.get_station_names`; `caps` holds the
declared integer capacity weight of each station
(`SingleDishParameters.get_station_capacity`).  Python's `int()` on a float
truncates toward zero, which on the non-negative proportional shares is the
floor. -/

/-- Python `int(q)`: truncation toward zero. -/
def pyInt (q : ℚ) : ℤ := if 0 ≤ q then ⌊q⌋ else -⌊-q⌋

/-- `proportional_share = (self.p.num_cooks * capacity) / total_capacity`. -/
def propShare (numCooks totalCap cap : ℕ) : ℚ := (numCooks * cap : ℚ) / (totalCap : ℚ)

/-- Descending order on `(fractional_part, station)` pairs: Python's
`fractional_parts.sort(reverse=True)` sorts the tuples in decreasing
lexicographic order. -/
def fracGe (a b : ℚ × ℕ) : Prop := b.1 < a.1 ∨ (a.1 = b.1 ∧ b.2 ≤ a.2)

instance : DecidableRel fracGe := fun a b => by
  unfold fracGe
  infer_instance

/-- The `total_capacity == 0` fallback: equal distribution with the remainder
going to the first stations in declaration order. -/
def distDefault (numCooks n : ℕ) : List ℕ :=
  (List.range n).map (fun i => max 1 (numCooks / n) + (if i < numCooks % n then 1 else 0))

/-- First pass: per-station proportional share, floored by `int()`, minimum 1. -/
def distBase (numCooks : ℕ) (caps : List ℕ) : List ℕ :=
  caps.map (fun c => max 1 (pyInt (propShare numCooks caps.sum c)).toNat)

/-- The `(fractional_part, station)` pairs built in the second pass. -/
def distFracs (numCooks : ℕ) (caps : List ℕ) : List (ℚ × ℕ) :=
  (List.range caps.length).map (fun i =>
    (propShare numCooks caps.sum (caps.getD i 0)
        - (pyInt (propShare numCooks caps.sum (caps.getD i 0)) : ℚ), i))

/-- The stations receiving one extra cook in the second pass: the first
`min(remainder, n)` stations of the descending sort by fractional part. -/
def distChosen (numCooks : ℕ) (caps : List ℕ) : List ℕ :=
  (((distFracs numCooks caps).insertionSort fracGe).take
    (min (numCooks - (distBase numCooks caps).sum) (distFracs numCooks caps).length)).map
    (fun p => p.2)

/-- `_distribute_cooks_to_stations`, stations indexed `0..n-1` in declaration
order; returns the per-station cook counts. -/
def distributeCooksToStations (numCooks : ℕ) (caps : List ℕ) : List ℕ :=
  if caps.sum = 0 then distDefault numCooks caps.length
  else if (distBase numCooks caps).sum < numCooks then
    (distChosen numCooks caps).foldl (fun d i => d.set i (d.getD i 0 + 1))
      (distBase numCooks caps)
  else distBase numCooks caps

lemma pyInt_of_nonneg {q : ℚ} (h : 0 ≤ q) : pyInt q = ⌊q⌋ := by
  simp [pyInt, h]

lemma propShare_nonneg (k W c : ℕ) : 0 ≤ propShare k W c := by
  unfold propShare
  positivity

/-- Cast of a mapped list sum of naturals to the rationals. -/
lemma cast_sum_map (l : List ℕ) (f : ℕ → ℕ) :
    (((l.map f).sum : ℕ) : ℚ) = (l.map (fun c => ((f c : ℕ) : ℚ))).sum := by
  induction l with
  | nil => simp
  | cons x xs ih =>
    simp only [List.map_cons, List.sum_cons, Nat.cast_add, ih]

lemma sum_map_mul_left_q (l : List ℕ) (q : ℚ) :
    (l.map (fun c : ℕ => q * (c : ℚ))).sum = q * (l.map (fun c : ℕ => (c : ℚ))).sum := by
  induction l with
  | nil => simp
  | cons x xs ih =>
    simp only [List.map_cons, List.sum_cons, ih]
    ring

lemma sum_map_sub_one (l : List ℕ) (g : ℕ → ℚ) :
    (l.map (fun c => g c - 1)).sum = (l.map g).sum - l.length := by
  induction l with
  | nil => simp
  | cons x xs ih =>
    simp only [List.map_cons, List.sum_cons, List.length_cons, ih]
    push_cast
    ring

/-- The proportional shares sum to the total cook count. -/
lemma sum_propShare (k : ℕ) (caps : List ℕ) (hW : caps.sum ≠ 0) :
    (caps.map (fun c => propShare k caps.sum c)).sum = k := by
  have hW' : ((caps.sum : ℕ) : ℚ) ≠ 0 := by exact_mod_cast hW
  have h1 : (fun c : ℕ => propShare k caps.sum c) =
      (fun c : ℕ => (((k : ℚ) / (caps.sum : ℚ)) * (c : ℚ) : ℚ)) := by
    funext c
    unfold propShare
    ring
  rw [h1, sum_map_mul_left_q, ← Nat.cast_list_sum]
  exact div_mul_cancel₀ _ hW'

lemma sum_range_const_add_ite (a r : ℕ) :
    ∀ n, ((List.range n).map (fun i => a + (if i < r then 1 else 0))).sum = n * a + min r n := by
  intro n
  induction n with
  | zero => simp
  | succ n ih =>
    rw [List.range_succ, List.map_append, List.sum_append, ih]
    simp only [List.map_cons, List.map_nil, List.sum_cons, List.sum_nil]
    rw [Nat.succ_mul]
    split <;> omega

lemma sum_set_getD_succ : ∀ (l : List ℕ) (i : ℕ), i < l.length →
    (l.set i (l.getD i 0 + 1)).sum = l.sum + 1 := by
  intro l
  induction l with
  | nil => intro i h; simp at h
  | cons x xs ih =>
    intro i h
    cases i with
    | zero =>
      simp only [List.set, List.getD_cons_zero, List.sum_cons]
      omega
    | succ j =>
      simp only [List.length_cons, Nat.succ_lt_succ_iff] at h
      simp only [List.set, List.getD_cons_succ, List.sum_cons]
      rw [ih j h]
      omega

lemma foldl_incr_length (idxs : List ℕ) (d : List ℕ) :
    (idxs.foldl (fun d i => d.set i (d.getD i 0 + 1)) d).length = d.length := by
  induction idxs generalizing d with
  | nil => rfl
  | cons i is ih =>
    rw [List.foldl_cons, ih, List.length_set]

lemma foldl_incr_sum (idxs : List ℕ) (d : List ℕ) (h : ∀ i ∈ idxs, i < d.length) :
    (idxs.foldl (fun d i => d.set i (d.getD i 0 + 1)) d).sum = d.sum + idxs.length := by
  induction idxs generalizing d with
  | nil => simp
  | cons i is ih =>
    rw [List.foldl_cons, List.length_cons,
      ih _ (fun j hj => by
        rw [List.length_set]
        exact h j (List.mem_cons_of_mem _ hj)),
      sum_set_getD_succ d i (h i (List.mem_cons_self i is))]
    omega

lemma foldl_incr_one_le (idxs : List ℕ) (d : List ℕ) (hd : ∀ x ∈ d, 1 ≤ x) :
    ∀ x ∈ idxs.foldl (fun d i => d.set i (d.getD i 0 + 1)) d, 1 ≤ x := by
  induction idxs generalizing d with
  | nil => exact hd
  | cons i is ih =>
    rw [List.foldl_cons]
    refine ih _ ?_
    intro x hx
    rcases List.mem_or_eq_of_mem_set hx with h | h
    · exact hd x h
    · omega

lemma distBase_length (k : ℕ) (caps : List ℕ) : (distBase k caps).length = caps.length := by
  simp [distBase]

lemma distBase_one_le (k : ℕ) (caps : List ℕ) : ∀ x ∈ distBase k caps, 1 ≤ x := by
  intro x hx
  simp only [distBase, List.mem_map] at hx
  obtain ⟨c, _, rfl⟩ := hx
  exact le_max_left _ _

/-- Lower bound on the first pass: each floored share loses less than 1. -/
lemma distBase_sum_lower (k : ℕ) (caps : List ℕ) (hW : caps.sum ≠ 0) :
    (k : ℚ) - caps.length ≤ ((distBase k caps).sum : ℚ) := by
  have hle : ∀ c ∈ caps, propShare k caps.sum c - 1 ≤
      ((max 1 (pyInt (propShare k caps.sum c)).toNat : ℕ) : ℚ) := by
    intro c _
    have h0 : 0 ≤ propShare k caps.sum c := propShare_nonneg _ _ _
    rw [pyInt_of_nonneg h0]
    have hfl : (0 : ℤ) ≤ ⌊propShare k caps.sum c⌋ := Int.floor_nonneg.2 h0
    have h1 : ((⌊propShare k caps.sum c⌋.toNat : ℕ) : ℚ) =
        ((⌊propShare k caps.sum c⌋ : ℤ) : ℚ) := by
      exact_mod_cast Int.toNat_of_nonneg hfl
    have h2 : propShare k caps.sum c - 1 ≤ ((⌊propShare k caps.sum c⌋ : ℤ) : ℚ) :=
      le_of_lt (Int.sub_one_lt_floor _)
    have h3 : ((⌊propShare k caps.sum c⌋.toNat : ℕ) : ℚ) ≤
        ((max 1 ⌊propShare k caps.sum c⌋.toNat : ℕ) : ℚ) := by
      exact_mod_cast le_max_right 1 ⌊propShare k caps.sum c⌋.toNat
    calc propShare k caps.sum c - 1
        ≤ ((⌊propShare k caps.sum c⌋.toNat : ℕ) : ℚ) := by rw [h1]; exact h2
      _ ≤ ((max 1 ⌊propShare k caps.sum c⌋.toNat : ℕ) : ℚ) := h3
  have hsum := List.sum_le_sum hle
  rw [sum_map_sub_one caps (fun c => propShare k caps.sum c), sum_propShare k caps hW] at hsum
  calc (k : ℚ) - caps.length
      ≤ (caps.map (fun c => ((max 1 (pyInt (propShare k caps.sum c)).toNat : ℕ) : ℚ))).sum :=
        hsum
    _ = ((distBase k caps).sum : ℚ) := (cast_sum_map caps _).symm

/-- Upper bound on the first pass when every proportional share is at least 1. -/
lemma distBase_sum_upper (k : ℕ) (caps : List ℕ) (hW : caps.sum ≠ 0)
    (hsh : ∀ c ∈ caps, 1 ≤ propShare k caps.sum c) :
    (distBase k caps).sum ≤ k := by
  have hle : ∀ c ∈ caps,
      ((max 1 (pyInt (propShare k caps.sum c)).toNat : ℕ) : ℚ) ≤ propShare k caps.sum c := by
    intro c hc
    have h0 : 0 ≤ propShare k caps.sum c := propShare_nonneg _ _ _
    have h1 : (1 : ℤ) ≤ ⌊propShare k caps.sum c⌋ := by
      rw [Int.le_floor]
      exact_mod_cast hsh c hc
    rw [pyInt_of_nonneg h0]
    have h2 : max 1 ⌊propShare k caps.sum c⌋.toNat = ⌊propShare k caps.sum c⌋.toNat := by
      omega
    rw [h2]
    have h3 : ((⌊propShare k caps.sum c⌋.toNat : ℕ) : ℚ) =
        ((⌊propShare k caps.sum c⌋ : ℤ) : ℚ) := by
      exact_mod_cast Int.toNat_of_nonneg (by omega)
    rw [h3]
    exact Int.floor_le _
  have hsum := List.sum_le_sum hle
  rw [sum_propShare k caps hW] at hsum
  have hcast : ((distBase k caps).sum : ℚ) ≤ (k : ℚ) := by
    calc ((distBase k caps).sum : ℚ)
        = (caps.map (fun c => ((max 1 (pyInt (propShare k caps.sum c)).toNat : ℕ) : ℚ))).sum :=
          cast_sum_map caps _
      _ ≤ (k : ℚ) := hsum
  exact_mod_cast hcast

lemma distFracs_length (k : ℕ) (caps : List ℕ) : (distFracs k caps).length = caps.length := by
  simp [distFracs]

lemma distFracs_snd_lt (k : ℕ) (caps : List ℕ) :
    ∀ p ∈ distFracs k caps, p.2 < caps.length := by
  intro p hp
  simp only [distFracs, List.mem_map, List.mem_range] at hp
  obtain ⟨i, hi, rfl⟩ := hp
  exact hi

lemma remainder_le_length (k : ℕ) (caps : List ℕ) (hW : caps.sum ≠ 0) :
    k - (distBase k caps).sum ≤ caps.length := by
  have h := distBase_sum_lower k caps hW
  have h2 : (k : ℚ) ≤ ((distBase k caps).sum : ℚ) + (caps.length : ℚ) := by linarith
  have h3 : k ≤ (distBase k caps).sum + caps.length := by exact_mod_cast h2
  omega

lemma distChosen_mem_lt (k : ℕ) (caps : List ℕ) :
    ∀ i ∈ distChosen k caps, i < (distBase k caps).length := by
  intro i hi
  simp only [distChosen, List.mem_map] at hi
  obtain ⟨p, hp, rfl⟩ := hi
  have hp2 := List.mem_of_mem_take hp
  have hp3 : p ∈ distFracs k caps :=
    (List.perm_insertionSort fracGe (distFracs k caps)).mem_iff.1 hp2
  rw [distBase_length]
  exact distFracs_snd_lt k caps p hp3

lemma distChosen_length (k : ℕ) (caps : List ℕ) (hW : caps.sum ≠ 0)
    (hlt : (distBase k caps).sum < k) :
    (distChosen k caps).length = k - (distBase k caps).sum := by
  have hrem := remainder_le_length k caps hW
  rw [distChosen, List.length_map, List.length_take, List.length_insertionSort,
    distFracs_length]
  omega

/-- The amended apportionment property (claim C1, corrected): with at least as
many cooks as stations, every station receives at least one cook and the total
assigned is at least `numCooks`; the total equals `numCooks` in the
zero-weight fallback and whenever every station's proportional share is at
least 1 (the first-pass minimum-of-one bump can otherwise overshoot the
total, and the negative remainder is never redistributed). -/
theorem distributeCooks_ge_one_sum (numCooks : ℕ) (caps : List ℕ) (hne : caps ≠ [])
    (hcooks : caps.length ≤ numCooks) :
    (distributeCooksToStations numCooks caps).length = caps.length ∧
    (∀ x ∈ distributeCooksToStations numCooks caps, 1 ≤ x) ∧
    numCooks ≤ (distributeCooksToStations numCooks caps).sum ∧
    (caps.sum = 0 → (distributeCooksToStations numCooks caps).sum = numCooks) ∧
    ((∀ c ∈ caps, 1 ≤ propShare numCooks caps.sum c) →
      (distributeCooksToStations numCooks caps).sum = numCooks) := by
  have hn : 0 < caps.length := List.length_pos.2 hne
  by_cases hW : caps.sum = 0
  · -- zero-weight fallback: exact even split
    have hcps : 1 ≤ numCooks / caps.length := (Nat.one_le_div_iff hn).2 hcooks
    have hmax : max 1 (numCooks / caps.length) = numCooks / caps.length := by omega
    have hsum : (distDefault numCooks caps.length).sum = numCooks := by
      unfold distDefault
      rw [hmax, sum_range_const_add_ite]
      have hmod : numCooks % caps.length < caps.length := Nat.mod_lt _ hn
      have hmin : min (numCooks % caps.length) caps.length = numCooks % caps.length := by
        omega
      rw [hmin]
      exact Nat.div_add_mod numCooks caps.length
    have hres : distributeCooksToStations numCooks caps =
        distDefault numCooks caps.length := by
      simp [distributeCooksToStations, hW]
    refine ⟨?_, ?_, ?_, fun _ => by rw [hres]; exact hsum, ?_⟩
    · rw [hres]
      simp [distDefault]
    · rw [hres]
      intro x hx
      simp only [distDefault, List.mem_map] at hx
      obtain ⟨i, _, rfl⟩ := hx
      have := le_max_left 1 (numCooks / caps.length)
      omega
    · rw [hres, hsum]
    · intro hsh
      obtain ⟨c, hc⟩ := List.exists_mem_of_ne_nil caps hne
      have h1 := hsh c hc
      rw [propShare, hW] at h1
      norm_num at h1
  · -- proportional distribution
    by_cases hlt : (distBase numCooks caps).sum < numCooks
    · have hres : distributeCooksToStations numCooks caps =
          (distChosen numCooks caps).foldl (fun d i => d.set i (d.getD i 0 + 1))
            (distBase numCooks caps) := by
        simp [distributeCooksToStations, hW, hlt]
      have hsum : (distributeCooksToStations numCooks caps).sum = numCooks := by
        rw [hres, foldl_incr_sum _ _ (distChosen_mem_lt numCooks caps),
          distChosen_length numCooks caps hW hlt]
        omega
      refine ⟨?_, ?_, by omega, fun h0 => absurd h0 hW, fun _ => hsum⟩
      · rw [hres, foldl_incr_length, distBase_length]
      · rw [hres]
        exact foldl_incr_one_le _ _ (distBase_one_le numCooks caps)
    · have hres : distributeCooksToStations numCooks caps = distBase numCooks caps := by
        simp [distributeCooksToStations, hW, hlt]
      push_neg at hlt
      refine ⟨by rw [hres, distBase_length],
        by rw [hres]; exact distBase_one_le numCooks caps,
        by rw [hres]; exact hlt, fun h0 => absurd h0 hW, ?_⟩
      intro hsh
      have := distBase_sum_upper numCooks caps hW hsh
      rw [hres]
      omega

/-- Counterexample to claim C1 as stated: with 4 cooks and the 3 stations
weighted `[1, 1, 98]` (so `4 ≥ 3`), the minimum-of-one bump makes the first
pass assign `[1, 1, 3]`, which sums to 5, not 4; the negative remainder is
never redistributed. -/
theorem distributeCooks_claim_false :
    ([1, 1, 98] : List ℕ).length ≤ 4 ∧
    distributeCooksToStations 4 [1, 1, 98] = [1, 1, 3] ∧
    (distributeCooksToStations 4 [1, 1, 98]).sum ≠ 4 := by
  have hbase : distBase 4 [1, 1, 98] = [1, 1, 3] := by
    simp only [distBase, pyInt, propShare]
    norm_num [Int.floor_eq_iff]
    decide
  refine ⟨by decide, ?_, ?_⟩
  · rw [distributeCooksToStations]
    norm_num [hbase]
  · rw [distributeCooksToStations]
    norm_num [hbase]

/-- Witness for `distributeCooks_ge_one_sum` at 5 cooks over weights `[2, 3]`. -/
theorem distributeCooks_ge_one_sum_witness :
    (distributeCooksToStations 5 [2, 3]).length = ([2, 3] : List ℕ).length ∧
    (∀ x ∈ distributeCooksToStations 5 [2, 3], 1 ≤ x) ∧
    5 ≤ (distributeCooksToStations 5 [2, 3]).sum ∧
    (([2, 3] : List ℕ).sum = 0 → (distributeCooksToStations 5 [2, 3]).sum = 5) ∧
    ((∀ c ∈ ([2, 3] : List ℕ), 1 ≤ propShare 5 ([2, 3] : List ℕ).sum c) →
      (distributeCooksToStations 5 [2, 3]).sum = 5) :=
  distributeCooks_ge_one_sum 5 [2, 3] (by decide) (by decide)

/-! ## Table matching: `RestaurantSimulation._find_matching_table`

Tables are identified by id; `tableSize` is `self.table_id_to_size`;
`availableByZone z` lists the members of `self.available_tables_by_zone[z]`
in Python's set-iteration order; `numZones = max(1, self.p.num_servers)`. -/

/-- Zone configuration of the seating subsystem. -/
structure ZoneConfig where
  numZones : ℕ
  tableSize : ℕ → ℕ
  availableByZone : ℕ → List ℕ

/-- The inner loop of `_find_matching_table`: best-fit scan of one zone's
available tables, carrying `(best_table, best_waste)`; `none` is the initial
`best_table = None, best_waste = inf`. -/
def bestFitLoop (sz : ℕ → ℕ) (ps : ℕ) : List ℕ → Option (ℕ × ℕ) → Option (ℕ × ℕ)
  | [], best => best
  | t :: ts, best =>
    if ps ≤ sz t then
      match best with
      | none => bestFitLoop sz ps ts (some (t, sz t - ps))
      | some (bt, bw) =>
        if sz t - ps < bw then bestFitLoop sz ps ts (some (t, sz t - ps))
        else bestFitLoop sz ps ts (some (bt, bw))
    else bestFitLoop sz ps ts best

/-- Best-fitting available table of one zone, if any. -/
def bestFitInZone (sz : ℕ → ℕ) (ps : ℕ) (tables : List ℕ) : Option ℕ :=
  (bestFitLoop sz ps tables none).map (fun p => p.1)

/-- The outer loop of `_find_matching_table`: scan `fuel` zones cyclically
starting at offset `off` from the rotating pointer `idx`; on a match return
the table and the advanced pointer, otherwise the unchanged pointer. -/
def fmtGo (cfg : ZoneConfig) (ps idx : ℕ) : ℕ → ℕ → Option ℕ × ℕ
  | _, 0 => (none, idx)
  | off, fuel + 1 =>
    match bestFitInZone cfg.tableSize ps
        (cfg.availableByZone ((idx + off) % cfg.numZones)) with
    | some t => (some t, ((idx + off) % cfg.numZones + 1) % cfg.numZones)
    | none => fmtGo cfg ps idx (off + 1) fuel

/-- `_find_matching_table`, returning the matched table (if any) together
with the new `next_zone_index`. -/
def findMatchingTable (cfg : ZoneConfig) (ps idx : ℕ) : Option ℕ × ℕ :=
  fmtGo cfg ps idx 0 cfg.numZones

lemma bestFitLoop_eq_none_iff (sz : ℕ → ℕ) (ps : ℕ) :
    ∀ (ts : List ℕ) (acc : Option (ℕ × ℕ)),
      bestFitLoop sz ps ts acc = none ↔ (acc = none ∧ ∀ t ∈ ts, sz t < ps) := by
  intro ts
  induction ts with
  | nil => intro acc; simp [bestFitLoop]
  | cons t ts ih =>
    intro acc
    by_cases hfit : ps ≤ sz t
    · cases acc with
      | none =>
        simp only [bestFitLoop, if_pos hfit]
        rw [ih]
        simp only [List.mem_cons]
        constructor
        · rintro ⟨h, -⟩; exact absurd h (by simp)
        · rintro ⟨-, h⟩
          exact absurd (h t (Or.inl rfl)) (by omega)
      | some b =>
        obtain ⟨bt, bw⟩ := b
        simp only [bestFitLoop, if_pos hfit]
        split
        · rw [ih]
          simp only [List.mem_cons]
          constructor
          · rintro ⟨h, -⟩; exact absurd h (by simp)
          · rintro ⟨h, -⟩; exact absurd h (by simp)
        · rw [ih]
          simp only [List.mem_cons]
          constructor
          · rintro ⟨h, -⟩; exact absurd h (by simp)
          · rintro ⟨h, -⟩; exact absurd h (by simp)
    · simp only [bestFitLoop, if_neg hfit]
      rw [ih]
      simp only [List.mem_cons]
      constructor
      · rintro ⟨ha, h⟩
        exact ⟨ha, fun x hx => hx.elim (fun he => he ▸ by omega) (h x)⟩
      · rintro ⟨ha, h⟩
        exact ⟨ha, fun x hx => h x (Or.inr hx)⟩

lemma bestFitLoop_some_spec (sz : ℕ → ℕ) (ps : ℕ) :
    ∀ (ts : List ℕ) (acc : Option (ℕ × ℕ)) (bt bw : ℕ),
      bestFitLoop sz ps ts acc = some (bt, bw) →
        ((acc = some (bt, bw)) ∨ (bt ∈ ts ∧ ps ≤ sz bt ∧ bw = sz bt - ps)) ∧
        (∀ t ∈ ts, ps ≤ sz t → bw ≤ sz t - ps) ∧
        (∀ p, acc = some p → bw ≤ p.2) := by
  intro ts
  induction ts with
  | nil =>
    intro acc bt bw h
    simp only [bestFitLoop] at h
    subst h
    refine ⟨Or.inl rfl, by simp, ?_⟩
    intro p hp
    rw [Option.some_inj] at hp
    subst hp
    exact Nat.le_refl _
  | cons t ts ih =>
    intro acc bt bw h
    by_cases hfit : ps ≤ sz t
    · cases acc with
      | none =>
        simp only [bestFitLoop, if_pos hfit] at h
        obtain ⟨h1, h2, h3⟩ := ih (some (t, sz t - ps)) bt bw h
        have hbw : bw ≤ sz t - ps := h3 (t, sz t - ps) rfl
        refine ⟨?_, ?_, by rintro p ⟨⟩⟩
        · rcases h1 with h1 | h1
          · simp only [Option.some_inj, Prod.mk.injEq] at h1
            exact Or.inr ⟨by rw [← h1.1]; exact List.mem_cons_self t ts, h1.1 ▸ hfit,
              by rw [← h1.1, ← h1.2]⟩
          · exact Or.inr ⟨List.mem_cons_of_mem _ h1.1, h1.2.1, h1.2.2⟩
        · intro x hx hpx
          rcases List.mem_cons.1 hx with rfl | hx
          · exact hbw
          · exact h2 x hx hpx
      | some b =>
        obtain ⟨b0, w0⟩ := b
        simp only [bestFitLoop, if_pos hfit] at h
        by_cases hlt : sz t - ps < w0
        · rw [if_pos hlt] at h
          obtain ⟨h1, h2, h3⟩ := ih (some (t, sz t - ps)) bt bw h
          have hbw : bw ≤ sz t - ps := h3 (t, sz t - ps) rfl
          refine ⟨?_, ?_, ?_⟩
          · rcases h1 with h1 | h1
            · simp only [Option.some_inj, Prod.mk.injEq] at h1
              exact Or.inr ⟨by rw [← h1.1]; exact List.mem_cons_self t ts, h1.1 ▸ hfit,
                by rw [← h1.1, ← h1.2]⟩
            · exact Or.inr ⟨List.mem_cons_of_mem _ h1.1, h1.2.1, h1.2.2⟩
          · intro x hx hpx
            rcases List.mem_cons.1 hx with rfl | hx
            · exact hbw
            · exact h2 x hx hpx
          · rintro p ⟨⟩
            simp only
            omega
        · rw [if_neg hlt] at h
          obtain ⟨h1, h2, h3⟩ := ih (some (b0, w0)) bt bw h
          have hbw : bw ≤ w0 := h3 (b0, w0) rfl
          refine ⟨?_, ?_, by rintro p ⟨⟩; exact hbw⟩
          · rcases h1 with h1 | h1
            · exact Or.inl h1
            · exact Or.inr ⟨List.mem_cons_of_mem _ h1.1, h1.2.1, h1.2.2⟩
          · intro x hx hpx
            rcases List.mem_cons.1 hx with rfl | hx
            · omega
            · exact h2 x hx hpx
    · simp only [bestFitLoop, if_neg hfit] at h
      obtain ⟨h1, h2, h3⟩ := ih acc bt bw h
      refine ⟨?_, ?_, h3⟩
      · rcases h1 with h1 | h1
        · exact Or.inl h1
        · exact Or.inr ⟨List.mem_cons_of_mem _ h1.1, h1.2.1, h1.2.2⟩
      · intro x hx hpx
        rcases List.mem_cons.1 hx with rfl | hx
        · exact absurd hpx hfit
        · exact h2 x hx hpx

lemma bestFitInZone_eq_none_iff (sz : ℕ → ℕ) (ps : ℕ) (tables : List ℕ) :
    bestFitInZone sz ps tables = none ↔ ∀ t ∈ tables, sz t < ps := by
  rw [bestFitInZone, Option.map_eq_none', bestFitLoop_eq_none_iff]
  simp

lemma bestFitInZone_some_spec (sz : ℕ → ℕ) (ps : ℕ) (tables : List ℕ) (t : ℕ)
    (h : bestFitInZone sz ps tables = some t) :
    t ∈ tables ∧ ps ≤ sz t ∧
      ∀ t' ∈ tables, ps ≤ sz t' → sz t - ps ≤ sz t' - ps := by
  rw [bestFitInZone, Option.map_eq_some'] at h
  obtain ⟨⟨bt, bw⟩, hloop, hfst⟩ := h
  simp only at hfst
  subst hfst
  obtain ⟨h1, h2, -⟩ := bestFitLoop_some_spec sz ps tables none bt bw hloop
  rcases h1 with h1 | ⟨hmem, hfit, hw⟩
  · exact absurd h1 (by simp)
  · refine ⟨hmem, hfit, fun t' ht' hp => ?_⟩
    have := h2 t' ht' hp
    omega

lemma fmtGo_none (cfg : ZoneConfig) (ps idx : ℕ) :
    ∀ (fuel off : ℕ),
      ((fmtGo cfg ps idx off fuel).1 = none ↔
        ∀ j, off ≤ j → j < off + fuel →
          bestFitInZone cfg.tableSize ps
            (cfg.availableByZone ((idx + j) % cfg.numZones)) = none) ∧
      ((fmtGo cfg ps idx off fuel).1 = none → (fmtGo cfg ps idx off fuel).2 = idx) := by
  intro fuel
  induction fuel with
  | zero =>
    intro off
    exact ⟨⟨fun _ j h1 h2 => by omega, fun _ => rfl⟩, fun _ => rfl⟩
  | succ fuel ih =>
    intro off
    cases hbf : bestFitInZone cfg.tableSize ps
        (cfg.availableByZone ((idx + off) % cfg.numZones)) with
    | some t =>
      simp only [fmtGo, hbf]
      constructor
      · constructor
        · intro h
          exact absurd h (by simp)
        · intro h
          have h2 := h off le_rfl (by omega)
          rw [h2] at hbf
          exact absurd hbf (by simp)
      · intro h
        exact absurd h (by simp)
    | none =>
      simp only [fmtGo, hbf]
      obtain ⟨ih1, ih2⟩ := ih (off + 1)
      constructor
      · rw [ih1]
        constructor
        · intro h j hj1 hj2
          rcases Nat.eq_or_lt_of_le hj1 with rfl | hj1'
          · exact hbf
          · exact h j hj1' (by omega)
        · intro h j hj1 hj2
          exact h j (by omega) (by omega)
      · exact ih2

lemma fmtGo_some (cfg : ZoneConfig) (ps idx : ℕ) :
    ∀ (fuel off : ℕ) (t : ℕ), (fmtGo cfg ps idx off fuel).1 = some t →
      ∃ k, off ≤ k ∧ k < off + fuel ∧
        (∀ j, off ≤ j → j < k →
          bestFitInZone cfg.tableSize ps
            (cfg.availableByZone ((idx + j) % cfg.numZones)) = none) ∧
        bestFitInZone cfg.tableSize ps
          (cfg.availableByZone ((idx + k) % cfg.numZones)) = some t ∧
        (fmtGo cfg ps idx off fuel).2 = ((idx + k) % cfg.numZones + 1) % cfg.numZones := by
  intro fuel
  induction fuel with
  | zero =>
    intro off t h
    simp [fmtGo] at h
  | succ fuel ih =>
    intro off t h
    cases hbf : bestFitInZone cfg.tableSize ps
        (cfg.availableByZone ((idx + off) % cfg.numZones)) with
    | some t' =>
      rw [fmtGo] at h
      rw [hbf] at h
      simp only [Option.some_inj] at h
      subst h
      refine ⟨off, le_rfl, by omega, fun j h1 h2 => by omega, hbf, ?_⟩
      rw [fmtGo, hbf]
    | none =>
      rw [fmtGo] at h
      rw [hbf] at h
      obtain ⟨k, hk1, hk2, hk3, hk4, hk5⟩ := ih (off + 1) t h
      refine ⟨k, by omega, by omega, ?_, hk4, ?_⟩
      · intro j hj1 hj2
        rcases Nat.eq_or_lt_of_le hj1 with rfl | hj1'
        · exact hbf
        · exact hk3 j hj1' hj2
      · rw [fmtGo, hbf]
        exact hk5

/-- Surjectivity of cyclic scanning: every zone is visited. -/
lemma exists_offset_mod (n idx z : ℕ) (hn : 0 < n) (hz : z < n) :
    ∃ off, off < n ∧ (idx + off) % n = z := by
  have ha : idx % n < n := Nat.mod_lt _ hn
  have hle : idx % n ≤ idx := Nat.mod_le idx n
  refine ⟨(n - idx % n + z) % n, Nat.mod_lt _ hn, ?_⟩
  rw [Nat.add_mod_mod]
  have h1 : idx + (n - idx % n + z) = (idx - idx % n) + n + z := by omega
  have h2 : n ∣ (idx - idx % n) := ⟨idx / n, by have := Nat.div_add_mod idx n; omega⟩
  obtain ⟨q, hq⟩ := h2
  rw [h1, hq, Nat.add_assoc, Nat.mul_add_mod, Nat.add_mod_left, Nat.mod_eq_of_lt hz]

/-- Claim C8: `_find_matching_table` returns `None` iff no zone has an
available table fitting the party (pointer unchanged); otherwise it returns a
minimal-surplus table of the first fitting zone in cyclic scan order from the
pointer, and advances the pointer past that zone. -/
theorem findMatchingTable_correct (cfg : ZoneConfig) (ps idx : ℕ)
    (hn : 0 < cfg.numZones) :
    ((findMatchingTable cfg ps idx).1 = none ↔
      ∀ z < cfg.numZones, ∀ t ∈ cfg.availableByZone z, cfg.tableSize t < ps) ∧
    ((findMatchingTable cfg ps idx).1 = none →
      (findMatchingTable cfg ps idx).2 = idx) ∧
    (∀ t, (findMatchingTable cfg ps idx).1 = some t →
      ∃ k < cfg.numZones,
        (∀ j < k, ∀ t' ∈ cfg.availableByZone ((idx + j) % cfg.numZones),
          cfg.tableSize t' < ps) ∧
        t ∈ cfg.availableByZone ((idx + k) % cfg.numZones) ∧
        ps ≤ cfg.tableSize t ∧
        (∀ t' ∈ cfg.availableByZone ((idx + k) % cfg.numZones),
          ps ≤ cfg.tableSize t' → cfg.tableSize t - ps ≤ cfg.tableSize t' - ps) ∧
        (findMatchingTable cfg ps idx).2 =
          ((idx + k) % cfg.numZones + 1) % cfg.numZones) := by
  obtain ⟨hnone, hptr⟩ := fmtGo_none cfg ps idx cfg.numZones 0
  refine ⟨?_, hptr, ?_⟩
  · rw [findMatchingTable, hnone]
    constructor
    · intro h z hz t ht
      obtain ⟨off, hoff, hoffz⟩ := exists_offset_mod cfg.numZones idx z hn hz
      have := h off (by omega) (by omega)
      rw [hoffz] at this
      exact (bestFitInZone_eq_none_iff _ _ _).1 this t ht
    · intro h j _ _
      rw [bestFitInZone_eq_none_iff]
      exact h _ (Nat.mod_lt _ hn)
  · intro t h
    obtain ⟨k, -, hk2, hk3, hk4, hk5⟩ := fmtGo_some cfg ps idx cfg.numZones 0 t h
    obtain ⟨hmem, hfit, hmin⟩ := bestFitInZone_some_spec _ _ _ _ hk4
    exact ⟨k, by omega, fun j hjk => (bestFitInZone_eq_none_iff _ _ _).1
      (hk3 j (by omega) hjk), hmem, hfit, hmin, hk5⟩

/-- Witness for `findMatchingTable_correct`: a single zone whose only table
is too small leaves the pointer unchanged. -/
theorem findMatchingTable_correct_witness :
    (findMatchingTable ⟨1, fun _ => 2, fun _ => [0]⟩ 5 0).2 = 0 ∧
    (findMatchingTable ⟨1, fun _ => 2, fun _ => [0]⟩ 5 0).1 = none :=
  ⟨(findMatchingTable_correct ⟨1, fun _ => 2, fun _ => [0]⟩ 5 0 (by norm_num)).2.1 rfl, rfl⟩

/-! ## Arrival generation: `RestaurantSimulation.generate_nhpp_arrivals`

The NumPy generator is abstracted as two draw streams: `gaps j` is the `j`-th
`rng.exponential(1 / lambda_max)` draw and `unif j` the `j`-th
`rng.random()` draw; the loop consumes one gap per candidate and one uniform
per candidate that lies below the horizon, so indexing both streams by the
candidate number reproduces the sequential consumption exactly. -/

/-- The `while t < simulation_duration` loop of `generate_nhpp_arrivals`,
with `fuel` bounding the number of candidates considered. -/
def nhppLoop (lam : ℚ → ℚ) (lamMax dur : ℚ) (gaps unif : ℕ → ℚ) :
    ℕ → ℚ → ℕ → List ℚ
  | 0, _, _ => []
  | fuel + 1, t, i =>
    if t < dur then
      if t + gaps i < dur then
        if unif i < lam (t + gaps i) / lamMax then
          (t + gaps i) :: nhppLoop lam lamMax dur gaps unif fuel (t + gaps i) (i + 1)
        else nhppLoop lam lamMax dur gaps unif fuel (t + gaps i) (i + 1)
      else nhppLoop lam lamMax dur gaps unif fuel (t + gaps i) (i + 1)
    else []

/-- `generate_nhpp_arrivals`: thinning from `t = 0` at the dominating rate
`lambda_max = lambda_base + lambda_peak_multiplier`. -/
def generateNhppArrivals (lam : ℚ → ℚ) (lambdaBase lambdaPeakMultiplier dur : ℚ)
    (gaps unif : ℕ → ℚ) (fuel : ℕ) : List ℚ :=
  nhppLoop lam (lambdaBase + lambdaPeakMultiplier) dur gaps unif fuel 0 0

/-- `candTime gaps t0 i k`: the `k`-th candidate time after `t0`, advancing
by the gaps drawn from index `i` on. -/
def candTime (gaps : ℕ → ℚ) (t0 : ℚ) (i : ℕ) : ℕ → ℚ
  | 0 => t0
  | k + 1 => candTime gaps t0 i k + gaps (i + k)

lemma candTime_shift (gaps : ℕ → ℚ) (t0 : ℚ) (i : ℕ) :
    ∀ k, candTime gaps t0 i (k + 1) = candTime gaps (t0 + gaps i) (i + 1) k := by
  intro k
  induction k with
  | zero => simp [candTime]
  | succ k ih =>
    have h : i + (k + 1) = i + 1 + k := by omega
    show candTime gaps t0 i (k + 1) + gaps (i + (k + 1)) = _
    rw [ih, h]
    rfl

lemma candTime_le (gaps : ℕ → ℚ) (hg : ∀ j, 0 ≤ gaps j) (t0 : ℚ) (i : ℕ) :
    ∀ k, t0 ≤ candTime gaps t0 i k := by
  intro k
  induction k with
  | zero => exact le_refl _
  | succ k ih =>
    have := hg (i + k)
    calc t0 ≤ candTime gaps t0 i k := ih
      _ ≤ candTime gaps t0 i k + gaps (i + k) := by linarith
      _ = candTime gaps t0 i (k + 1) := rfl

/-- Acceptance test of candidate `k` (relative to start `t0`, stream
position `i`). -/
def nhppAccept (lam : ℚ → ℚ) (lamMax dur : ℚ) (gaps unif : ℕ → ℚ)
    (t0 : ℚ) (i k : ℕ) : Bool :=
  decide (candTime gaps t0 i (k + 1) < dur) &&
    decide (unif (i + k) < lam (candTime gaps t0 i (k + 1)) / lamMax)

/-- Closed form of the thinning loop: candidate `k` is emitted iff its time
is below the horizon and its uniform draw is below `lam(t)/lamMax`. -/
lemma nhppLoop_eq (lam : ℚ → ℚ) (lamMax dur : ℚ) (gaps unif : ℕ → ℚ)
    (hg : ∀ j, 0 ≤ gaps j) :
    ∀ (fuel : ℕ) (t0 : ℚ) (i : ℕ),
      nhppLoop lam lamMax dur gaps unif fuel t0 i =
        ((List.range fuel).filter (nhppAccept lam lamMax dur gaps unif t0 i)).map
          (fun k => candTime gaps t0 i (k + 1)) := by
  intro fuel
  induction fuel with
  | zero => intro t0 i; simp [nhppLoop]
  | succ fuel ih =>
    intro t0 i
    have hshift : ∀ k : ℕ, candTime gaps t0 i (k + 1 + 1) =
        candTime gaps (t0 + gaps i) (i + 1) (k + 1) := fun k => by
      rw [candTime_shift]
    have haccs : ∀ k : ℕ, nhppAccept lam lamMax dur gaps unif t0 i (k + 1) =
        nhppAccept lam lamMax dur gaps unif (t0 + gaps i) (i + 1) k := by
      intro k
      unfold nhppAccept
      rw [hshift k]
      have : i + (k + 1) = i + 1 + k := by omega
      rw [this]
    have hrhs : ((List.range (fuel + 1)).filter
          (nhppAccept lam lamMax dur gaps unif t0 i)).map
            (fun k => candTime gaps t0 i (k + 1)) =
        (if nhppAccept lam lamMax dur gaps unif t0 i 0 then [t0 + gaps i] else []) ++
        ((List.range fuel).filter
          (nhppAccept lam lamMax dur gaps unif (t0 + gaps i) (i + 1))).map
            (fun k => candTime gaps (t0 + gaps i) (i + 1) (k + 1)) := by
      rw [List.range_succ_eq_map, List.filter_cons, List.filter_map]
      have hcomp : (List.filter (nhppAccept lam lamMax dur gaps unif t0 i ∘ Nat.succ)
            (List.range fuel)) =
          (List.filter (nhppAccept lam lamMax dur gaps unif (t0 + gaps i) (i + 1))
            (List.range fuel)) := by
        apply List.filter_congr
        intro k _
        show nhppAccept lam lamMax dur gaps unif t0 i (k + 1) = _
        rw [haccs k]
      split
      · simp only [List.map_cons, List.map_map, hcomp, List.singleton_append]
        have hc1 : candTime gaps t0 i (0 + 1) = t0 + gaps i := by simp [candTime]
        rw [hc1]
        congr 1
        apply List.map_congr_left
        intro k _
        show candTime gaps t0 i (k + 1 + 1) = _
        exact hshift k
      · simp only [List.map_map, hcomp, List.nil_append]
        apply List.map_congr_left
        intro k _
        show candTime gaps t0 i (k + 1 + 1) = _
        exact hshift k
    rw [hrhs]
    by_cases ht : t0 < dur
    · by_cases ht' : t0 + gaps i < dur
      · by_cases hu : unif i < lam (t0 + gaps i) / lamMax
        · rw [nhppLoop, if_pos ht, if_pos ht', if_pos hu, ih (t0 + gaps i) (i + 1)]
          have hacc : nhppAccept lam lamMax dur gaps unif t0 i 0 = true := by
            unfold nhppAccept
            have hc1 : candTime gaps t0 i 1 = t0 + gaps i := by simp [candTime]
            rw [hc1]
            simp [ht', hu]
          rw [hacc]
          simp
        · rw [nhppLoop, if_pos ht, if_pos ht', if_neg hu, ih (t0 + gaps i) (i + 1)]
          have hacc : nhppAccept lam lamMax dur gaps unif t0 i 0 = false := by
            unfold nhppAccept
            have hc1 : candTime gaps t0 i 1 = t0 + gaps i := by simp [candTime]
            rw [hc1]
            simp [hu]
          rw [hacc]
          simp
      · rw [nhppLoop, if_pos ht, if_neg ht', ih (t0 + gaps i) (i + 1)]
        have hacc : nhppAccept lam lamMax dur gaps unif t0 i 0 = false := by
          unfold nhppAccept
          have hc1 : candTime gaps t0 i 1 = t0 + gaps i := by simp [candTime]
          rw [hc1]
          simp [ht']
        rw [hacc]
        simp
    · rw [nhppLoop, if_neg ht]
      have hfilt : ((List.range fuel).filter
          (nhppAccept lam lamMax dur gaps unif (t0 + gaps i) (i + 1))) = [] := by
        rw [List.filter_eq_nil_iff]
        intro k _
        unfold nhppAccept
        have h1 : t0 ≤ candTime gaps (t0 + gaps i) (i + 1) (k + 1) := by
          have h2 := candTime_le gaps hg (t0 + gaps i) (i + 1) (k + 1)
          have h3 := hg i
          linarith
        simp only [Bool.and_eq_true, decide_eq_true_eq, not_and]
        intro hlt
        linarith
      have hacc : nhppAccept lam lamMax dur gaps unif t0 i 0 = false := by
        unfold nhppAccept
        have hc1 : candTime gaps t0 i 1 = t0 + gaps i := by simp [candTime]
        rw [hc1]
        have h3 := hg i
        have : ¬ (t0 + gaps i < dur) := by linarith
        simp [this]
      rw [hacc, hfilt]
      simp

lemma nhppLoop_mem (lam : ℚ → ℚ) (lamMax dur : ℚ) (gaps unif : ℕ → ℚ)
    (hg : ∀ j, 0 ≤ gaps j) :
    ∀ (fuel : ℕ) (t0 : ℚ) (i : ℕ),
      ∀ x ∈ nhppLoop lam lamMax dur gaps unif fuel t0 i, t0 ≤ x ∧ x < dur := by
  intro fuel
  induction fuel with
  | zero => intro t0 i x hx; simp [nhppLoop] at hx
  | succ fuel ih =>
    intro t0 i x hx
    rw [nhppLoop] at hx
    by_cases ht : t0 < dur
    · rw [if_pos ht] at hx
      have hgap := hg i
      by_cases ht' : t0 + gaps i < dur
      · rw [if_pos ht'] at hx
        by_cases hu : unif i < lam (t0 + gaps i) / lamMax
        · rw [if_pos hu] at hx
          rcases List.mem_cons.1 hx with rfl | hx
          · constructor <;> linarith
          · have := ih (t0 + gaps i) (i + 1) x hx
            constructor <;> linarith [this.1, this.2]
        · rw [if_neg hu] at hx
          have := ih (t0 + gaps i) (i + 1) x hx
          constructor <;> linarith [this.1, this.2]
      · rw [if_neg ht'] at hx
        have := ih (t0 + gaps i) (i + 1) x hx
        constructor <;> linarith [this.1, this.2]
    · rw [if_neg ht] at hx
      simp at hx

lemma nhppLoop_sorted (lam : ℚ → ℚ) (lamMax dur : ℚ) (gaps unif : ℕ → ℚ)
    (hg : ∀ j, 0 ≤ gaps j) :
    ∀ (fuel : ℕ) (t0 : ℚ) (i : ℕ),
      List.Sorted (· ≤ ·) (nhppLoop lam lamMax dur gaps unif fuel t0 i) := by
  intro fuel
  induction fuel with
  | zero => intro t0 i; simp [nhppLoop]
  | succ fuel ih =>
    intro t0 i
    rw [nhppLoop]
    split
    · split
      · split
        · rw [List.sorted_cons]
          exact ⟨fun x hx => (nhppLoop_mem lam lamMax dur gaps unif hg fuel _ _ x hx).1,
            ih _ _⟩
        · exact ih _ _
      · exact ih _ _
    · simp

/-- Claim C9: `generate_nhpp_arrivals` realizes thinning — for fixed draw
streams the result is exactly the list of candidate times
`t_k = gap_0 + … + gap_k` that are below the horizon and whose uniform draw
lies below `lam(t_k) / (lambda_base + lambda_peak_multiplier)`; it is
non-decreasing and every element is below the simulation duration. -/
theorem generateNhppArrivals_correct (lam : ℚ → ℚ)
    (lambdaBase lambdaPeakMultiplier dur : ℚ) (gaps unif : ℕ → ℚ) (fuel : ℕ)
    (hg : ∀ j, 0 ≤ gaps j) :
    generateNhppArrivals lam lambdaBase lambdaPeakMultiplier dur gaps unif fuel =
      ((List.range fuel).filter
        (nhppAccept lam (lambdaBase + lambdaPeakMultiplier) dur gaps unif 0 0)).map
        (fun k => candTime gaps 0 0 (k + 1)) ∧
    List.Sorted (· ≤ ·)
      (generateNhppArrivals lam lambdaBase lambdaPeakMultiplier dur gaps unif fuel) ∧
    ∀ x ∈ generateNhppArrivals lam lambdaBase lambdaPeakMultiplier dur gaps unif fuel,
      x < dur := by
  refine ⟨?_, ?_, ?_⟩
  · rw [generateNhppArrivals, nhppLoop_eq lam _ dur gaps unif hg fuel 0 0]
  · exact nhppLoop_sorted lam _ dur gaps unif hg fuel 0 0
  · intro x hx
    exact (nhppLoop_mem lam _ dur gaps unif hg fuel 0 0 x hx).2

/-- Witness for `generateNhppArrivals_correct` on constant unit gaps,
always-accepting uniforms, and horizon 3. -/
theorem generateNhppArrivals_correct_witness :
    (generateNhppArrivals (fun _ => 1) 1 0 3 (fun _ => 1) (fun _ => 0) 5 =
      ((List.range 5).filter
        (nhppAccept (fun _ => 1) (1 + 0) 3 (fun _ => 1) (fun _ => 0) 0 0)).map
        (fun k => candTime (fun _ => 1) 0 0 (k + 1))) ∧
    List.Sorted (· ≤ ·)
      (generateNhppArrivals (fun _ => 1) 1 0 3 (fun _ => 1) (fun _ => 0) 5) ∧
    ∀ x ∈ generateNhppArrivals (fun _ => 1) 1 0 3 (fun _ => 1) (fun _ => 0) 5,
      x < 3 :=
  generateNhppArrivals_correct (fun _ => 1) 1 0 3 (fun _ => 1) (fun _ => 0) 5
    (fun _ => by norm_num)

/-! ## Task registry and queues: `_remove_task_from_queues` and consumers

`TaskType` and the relevant `Task` fields follow `models.py`; the engine's
queue state follows `RestaurantSimulation.__init__` (the global
`active_tasks` registry keyed by task id, one server queue per zone, and the
pooled food-runner and busser queues). -/

/-- `models.TaskType`. -/
inductive PyTaskType
  | ordering
  | checkout
  | delivery
  | cleaning
  deriving DecidableEq, Repr

/-- The `models.Task` fields relevant to queue handling. -/
structure PyTask where
  id : ℕ
  taskType : PyTaskType
  zoneId : ℕ
  assignedTo : Option String
  deriving DecidableEq, Repr

/-- The queue/registry state of the engine. -/
structure TaskQueues where
  activeTasks : List ℕ
  serverZoneQueues : List (List PyTask)
  foodRunnerQueue : List PyTask
  busserQueue : List PyTask
  deriving DecidableEq, Repr

/-- The in-place `for i, t in enumerate(list(queue)): if t.id == task_id:
del queue[i]; break` pattern: remove the first entry with a matching id. -/
def removeFirstById (tid : ℕ) : List PyTask → List PyTask
  | [] => []
  | t :: ts => if t.id = tid then ts else t :: removeFirstById tid ts

/-- `_remove_task_from_queues`: deregister the task and drop it from its zone
queue and, per task type, from the matching pooled queue, then record the
claiming consumer on the task. -/
def removeTaskFromQueues (s : TaskQueues) (task : PyTask) (claimedBy : String) :
    TaskQueues × PyTask :=
  ({ activeTasks := s.activeTasks.erase task.id
     serverZoneQueues :=
       if task.zoneId < s.serverZoneQueues.length then
         s.serverZoneQueues.set task.zoneId
           (removeFirstById task.id (s.serverZoneQueues.getD task.zoneId []))
       else s.serverZoneQueues
     foodRunnerQueue :=
       if task.taskType = PyTaskType.delivery then removeFirstById task.id s.foodRunnerQueue
       else s.foodRunnerQueue
     busserQueue :=
       if task.taskType = PyTaskType.cleaning then removeFirstById task.id s.busserQueue
       else s.busserQueue },
   { task with assignedTo := some claimedBy })

/-- `removeFirstById` removes at most the first matching entry and keeps the
relative order of everything else. -/
lemma removeFirstById_spec (tid : ℕ) :
    ∀ l : List PyTask,
      ((∀ t ∈ l, t.id ≠ tid) ∧ removeFirstById tid l = l) ∨
      (∃ pre x post, l = pre ++ x :: post ∧ x.id = tid ∧ (∀ y ∈ pre, y.id ≠ tid) ∧
        removeFirstById tid l = pre ++ post) := by
  intro l
  induction l with
  | nil => exact Or.inl ⟨by simp, rfl⟩
  | cons t ts ih =>
    by_cases h : t.id = tid
    · refine Or.inr ⟨[], t, ts, by simp, h, by simp, ?_⟩
      simp [removeFirstById, h]
    · rcases ih with ⟨hall, heq⟩ | ⟨pre, x, post, hsplit, hx, hpre, heq⟩
      · refine Or.inl ⟨?_, ?_⟩
        · intro y hy
          rcases List.mem_cons.1 hy with rfl | hy
          · exact h
          · exact hall y hy
        · simp [removeFirstById, h, heq]
      · refine Or.inr ⟨t :: pre, x, post, by simp [hsplit], hx, ?_, ?_⟩
        · intro y hy
          rcases List.mem_cons.1 hy with rfl | hy
          · exact h
          · exact hpre y hy
        · simp [removeFirstById, h, heq]

/-- Claim C10: the frame conditions of `_remove_task_from_queues`.  The task
id leaves the registry; only the task's own zone queue and (for Delivery
resp. Cleaning tasks) the matching pooled queue lose at most their first
matching entry, all other queues and all relative orders are untouched; and
the task is stamped with the claiming consumer. -/
theorem removeTaskFromQueues_spec (s : TaskQueues) (task : PyTask)
    (claimedBy : String) (hnodup : s.activeTasks.Nodup) :
    ((removeTaskFromQueues s task claimedBy).1.activeTasks =
        s.activeTasks.erase task.id ∧
      task.id ∉ (removeTaskFromQueues s task claimedBy).1.activeTasks) ∧
    (∀ z, z ≠ task.zoneId →
      (removeTaskFromQueues s task claimedBy).1.serverZoneQueues.getD z [] =
        s.serverZoneQueues.getD z []) ∧
    (task.zoneId < s.serverZoneQueues.length →
      (removeTaskFromQueues s task claimedBy).1.serverZoneQueues.getD task.zoneId [] =
        removeFirstById task.id (s.serverZoneQueues.getD task.zoneId [])) ∧
    (task.taskType ≠ PyTaskType.delivery →
      (removeTaskFromQueues s task claimedBy).1.foodRunnerQueue = s.foodRunnerQueue) ∧
    (task.taskType = PyTaskType.delivery →
      (removeTaskFromQueues s task claimedBy).1.foodRunnerQueue =
        removeFirstById task.id s.foodRunnerQueue) ∧
    (task.taskType ≠ PyTaskType.cleaning →
      (removeTaskFromQueues s task claimedBy).1.busserQueue = s.busserQueue) ∧
    (task.taskType = PyTaskType.cleaning →
      (removeTaskFromQueues s task claimedBy).1.busserQueue =
        removeFirstById task.id s.busserQueue) ∧
    ((removeTaskFromQueues s task claimedBy).2.assignedTo = some claimedBy ∧
      (removeTaskFromQueues s task claimedBy).2.id = task.id ∧
      (removeTaskFromQueues s task claimedBy).2.taskType = task.taskType ∧
      (removeTaskFromQueues s task claimedBy).2.zoneId = task.zoneId) ∧
    (∀ l : List PyTask,
      ((∀ t ∈ l, t.id ≠ task.id) ∧ removeFirstById task.id l = l) ∨
      (∃ pre x post, l = pre ++ x :: post ∧ x.id = task.id ∧
        (∀ y ∈ pre, y.id ≠ task.id) ∧ removeFirstById task.id l = pre ++ post)) := by
  refine ⟨⟨rfl, ?_⟩, ?_, ?_, ?_, ?_, ?_, ?_, ⟨rfl, rfl, rfl, rfl⟩,
    removeFirstById_spec task.id⟩
  · exact (List.Nodup.not_mem_erase hnodup)
  · intro z hz
    show (if task.zoneId < s.serverZoneQueues.length then
        s.serverZoneQueues.set task.zoneId _ else s.serverZoneQueues).getD z [] = _
    split
    · simp [List.getD_eq_getElem?_getD,
        List.getElem?_set_ne (fun h => hz h.symm : task.zoneId ≠ z)]
    · rfl
  · intro hlt
    show (if task.zoneId < s.serverZoneQueues.length then
        s.serverZoneQueues.set task.zoneId _ else s.serverZoneQueues).getD task.zoneId [] = _
    rw [if_pos hlt]
    simp [List.getD_eq_getElem?_getD, List.getElem?_set_self, hlt]
  · intro h
    show (if task.taskType = PyTaskType.delivery then _ else _) = _
    rw [if_neg h]
  · intro h
    show (if task.taskType = PyTaskType.delivery then _ else _) = _
    rw [if_pos h]
  · intro h
    show (if task.taskType = PyTaskType.cleaning then _ else _) = _
    rw [if_neg h]
  · intro h
    show (if task.taskType = PyTaskType.cleaning then _ else _) = _
    rw [if_pos h]

/-- Witness for `removeTaskFromQueues_spec` on a one-zone state holding a
single delivery task. -/
theorem removeTaskFromQueues_spec_witness :
    (([3] : List ℕ).Nodup) ∧
    ((removeTaskFromQueues
        ⟨[3], [[⟨3, PyTaskType.delivery, 0, none⟩]],
          [⟨3, PyTaskType.delivery, 0, none⟩], []⟩
        ⟨3, PyTaskType.delivery, 0, none⟩ "food_runner").1.activeTasks =
        ([3] : List ℕ).erase 3 ∧
      (3 : ℕ) ∉ (removeTaskFromQueues
        ⟨[3], [[⟨3, PyTaskType.delivery, 0, none⟩]],
          [⟨3, PyTaskType.delivery, 0, none⟩], []⟩
        ⟨3, PyTaskType.delivery, 0, none⟩ "food_runner").1.activeTasks) :=
  ⟨by decide,
    (removeTaskFromQueues_spec
      ⟨[3], [[⟨3, PyTaskType.delivery, 0, none⟩]],
        [⟨3, PyTaskType.delivery, 0, none⟩], []⟩
      ⟨3, PyTaskType.delivery, 0, none⟩ "food_runner" (by decide)).1⟩

/-! ## Station dispatch machine: `_station_dispatcher` / `_cook_component`

One labelled transition system per station.  `cookCounts` is
`station_cook_counts[name]` (Python ints, so modelled in `ℤ`); `busySlots`
is `station.busy_slots`; `queued` the station queue length; `pending` counts
components popped by the dispatcher (which increments `busy_slots`
immediately) whose scheduled `_cook_component` process has not yet run
`_assign_component_to_cook`; `cooking` is the multiset of cook indices of
components currently cooking.  Steps only happen at the suspension points of
the cooperative scheduler, so each step is one atomic block of the code. -/

/-- `_has_available_cook`. -/
def hasAvailableCook (limit : ℕ) (cookCounts : List ℤ) : Bool :=
  cookCounts.any (fun c => c < (limit : ℤ))

/-- `_assign_component_to_cook`: bind to the first cook with spare capacity,
incrementing its count; `none` is the `RuntimeError("No available cook")`
path. -/
def assignComponentToCook (limit : ℕ) : List ℤ → Option (ℕ × List ℤ)
  | [] => none
  | c :: cs =>
    if c < (limit : ℤ) then some (0, (c + 1) :: cs)
    else (assignComponentToCook limit cs).map (fun p => (p.1 + 1, c :: p.2))

/-- The count update of `_release_component_from_cook`. -/
def releaseComponentFromCook (cookCounts : List ℤ) (i : ℕ) : List ℤ :=
  cookCounts.set i (cookCounts.getD i 0 - 1)

/-- Per-station state. -/
structure StationState where
  capacity : ℤ
  cookCounts : List ℤ
  busySlots : ℤ
  queued : ℕ
  pending : ℕ
  cooking : Multiset ℕ

/-- `__init__`: `station_capacity = num_cooks_at_station * cook_concurrency`
and `station_cook_counts[name] = [0] * num_cooks_at_station`. -/
def initStation (numCooks limit : ℕ) : StationState :=
  { capacity := (numCooks * limit : ℕ)
    cookCounts := List.replicate numCooks 0
    busySlots := 0
    queued := 0
    pending := 0
    cooking := 0 }

/-- Atomic steps of the station subsystem. -/
inductive StationStep (limit : ℕ) : StationState → StationState → Prop
  | enqueue (s : StationState) :
      StationStep limit s { s with queued := s.queued + 1 }
  | dispatch (s : StationState)
      (hcap : s.busySlots < s.capacity)
      (hq : 0 < s.queued)
      (hcook : hasAvailableCook limit s.cookCounts = true) :
      StationStep limit s
        { s with busySlots := s.busySlots + 1, queued := s.queued - 1,
                 pending := s.pending + 1 }
  | assign (s : StationState) (i : ℕ) (counts' : List ℤ)
      (hp : 0 < s.pending)
      (ha : assignComponentToCook limit s.cookCounts = some (i, counts')) :
      StationStep limit s
        { s with cookCounts := counts', pending := s.pending - 1,
                 cooking := i ::ₘ s.cooking }
  | complete (s : StationState) (i : ℕ) (hi : i ∈ s.cooking) :
      StationStep limit s
        { s with busySlots := s.busySlots - 1,
                 cookCounts := releaseComponentFromCook s.cookCounts i,
                 cooking := s.cooking.erase i }

/-- States reachable from a freshly initialized station. -/
def StationReachable (numCooks limit : ℕ) (s : StationState) : Prop :=
  Relation.ReflTransGen (StationStep limit) (initStation numCooks limit) s

/-- The inductive invariant of the station machine. -/
structure StationInv (numCooks limit : ℕ) (s : StationState) : Prop where
  capacity_eq : s.capacity = (numCooks : ℤ) * (limit : ℤ)
  length_eq : s.cookCounts.length = numCooks
  counts_eq : ∀ i, s.cookCounts.getD i 0 = (s.cooking.count i : ℤ)
  cooking_lt : ∀ i ∈ s.cooking, i < numCooks
  busy_eq : s.busySlots = (s.pending : ℤ) + (Multiset.card s.cooking : ℤ)
  busy_le : s.busySlots ≤ s.capacity
  counts_le : ∀ i, s.cookCounts.getD i 0 ≤ (limit : ℤ)

lemma assignComponentToCook_spec (limit : ℕ) :
    ∀ (counts : List ℤ) (i : ℕ) (counts' : List ℤ),
      assignComponentToCook limit counts = some (i, counts') →
      i < counts.length ∧ counts.getD i 0 < (limit : ℤ) ∧
      counts' = counts.set i (counts.getD i 0 + 1) := by
  intro counts
  induction counts with
  | nil => intro i counts' h; simp [assignComponentToCook] at h
  | cons c cs ih =>
    intro i counts' h
    rw [assignComponentToCook] at h
    by_cases hc : c < (limit : ℤ)
    · rw [if_pos hc] at h
      simp only [Option.some_inj, Prod.mk.injEq] at h
      obtain ⟨hi, hcs⟩ := h
      subst hi
      subst hcs
      exact ⟨by simp, by simpa using hc, by simp⟩
    · rw [if_neg hc] at h
      rw [Option.map_eq_some'] at h
      obtain ⟨⟨i', cs'⟩, hrec, heq⟩ := h
      simp only [Prod.mk.injEq] at heq
      obtain ⟨hi, hcs⟩ := heq
      obtain ⟨h1, h2, h3⟩ := ih i' cs' hrec
      subst hi
      subst hcs
      refine ⟨by simpa using h1, by simpa using h2, ?_⟩
      simp only [List.set_cons_succ, List.getD_cons_succ]
      rw [h3]

lemma assignComponentToCook_eq_none_iff (limit : ℕ) :
    ∀ counts : List ℤ,
      assignComponentToCook limit counts = none ↔ ∀ c ∈ counts, (limit : ℤ) ≤ c := by
  intro counts
  induction counts with
  | nil => simp [assignComponentToCook]
  | cons c cs ih =>
    rw [assignComponentToCook]
    by_cases hc : c < (limit : ℤ)
    · rw [if_pos hc]
      constructor
      · intro h
        exact absurd h (by simp)
      · intro h
        exact absurd (h c (List.mem_cons_self c cs)) (not_le.2 hc)
    · rw [if_neg hc, Option.map_eq_none', ih]
      constructor
      · intro h x hx
        rcases List.mem_cons.1 hx with rfl | hx
        · omega
        · exact h x hx
      · intro h x hx
        exact h x (List.mem_cons_of_mem _ hx)

lemma stationInv_init (numCooks limit : ℕ) :
    StationInv numCooks limit (initStation numCooks limit) := by
  refine ⟨by simp [initStation], by simp [initStation], ?_, ?_, ?_, ?_, ?_⟩
  · intro i
    simp only [initStation, Multiset.count_zero, Nat.cast_zero]
    rcases Nat.lt_or_ge i numCooks with h | h
    · rw [List.getD_eq_getElem?_getD]
      simp [List.getElem?_replicate, h]
    · rw [List.getD_eq_getElem?_getD, List.getElem?_eq_none (by simpa using h)]
      rfl
  · intro i hi
    simp [initStation] at hi
  · simp [initStation]
  · simp only [initStation]
    positivity
  · intro i
    have h0 : (0 : ℤ) ≤ (limit : ℤ) := by positivity
    rcases Nat.lt_or_ge i numCooks with h | h
    · simp only [initStation]
      rw [List.getD_eq_getElem?_getD]
      simp [List.getElem?_replicate, h, h0]
    · simp only [initStation]
      rw [List.getD_eq_getElem?_getD, List.getElem?_eq_none (by simpa using h)]
      simpa using h0

lemma stationInv_step (numCooks limit : ℕ) (s s' : StationState)
    (hinv : StationInv numCooks limit s) (hstep : StationStep limit s s') :
    StationInv numCooks limit s' := by
  obtain ⟨hcap, hlen, hcnt, hclt, hbusy, hble, hcle⟩ := hinv
  cases hstep with
  | enqueue =>
    exact ⟨hcap, hlen, hcnt, hclt, hbusy, hble, hcle⟩
  | dispatch hc hq hcook =>
    refine ⟨hcap, hlen, hcnt, hclt, ?_, by simpa using hc, hcle⟩
    simp only
    push_cast
    omega
  | assign i counts' hp ha =>
    obtain ⟨hilt, hclt', hset⟩ := assignComponentToCook_spec limit s.cookCounts i counts' ha
    have hlen' : counts'.length = numCooks := by rw [hset, List.length_set, hlen]
    refine ⟨hcap, hlen', ?_, ?_, ?_, hble, ?_⟩
    · intro j
      by_cases hji : j = i
      · subst hji
        rw [hset, List.getD_eq_getElem?_getD, List.getElem?_set_self (by omega)]
        simp only [Option.getD_some, Multiset.count_cons_self]
        have hc := hcnt j
        push_cast
        omega
      · rw [hset, List.getD_eq_getElem?_getD,
          List.getElem?_set_ne (fun h => hji h.symm), ← List.getD_eq_getElem?_getD,
          Multiset.count_cons_of_ne hji]
        exact hcnt j
    · intro j hj
      simp only at hj
      rcases Multiset.mem_cons.1 hj with rfl | hj
      · omega
      · exact hclt j hj
    · simp only [Multiset.card_cons]
      push_cast
      omega
    · intro j
      by_cases hji : j = i
      · subst hji
        rw [hset, List.getD_eq_getElem?_getD, List.getElem?_set_self (by omega)]
        simpa using hclt'
      · rw [hset, List.getD_eq_getElem?_getD,
          List.getElem?_set_ne (fun h => hji h.symm), ← List.getD_eq_getElem?_getD]
        exact hcle j
  | complete i hi =>
    have hilt : i < numCooks := hclt i hi
    have hcnt_pos : 0 < s.cooking.count i := Multiset.count_pos.2 hi
    have hcard_pos : 0 < Multiset.card s.cooking :=
      lt_of_lt_of_le hcnt_pos (Multiset.count_le_card i s.cooking)
    refine ⟨hcap, ?_, ?_, ?_, ?_, by simp only; omega, ?_⟩
    · simpa [releaseComponentFromCook] using hlen
    · intro j
      simp only [releaseComponentFromCook]
      by_cases hji : j = i
      · subst hji
        rw [List.getD_eq_getElem?_getD, List.getElem?_set_self (by omega)]
        simp only [Option.getD_some]
        rw [Multiset.count_erase_self]
        have := hcnt j
        push_cast
        omega
      · rw [List.getD_eq_getElem?_getD, List.getElem?_set_ne (fun h => hji h.symm),
          ← List.getD_eq_getElem?_getD, Multiset.count_erase_of_ne hji]
        exact hcnt j
    · intro j hj
      exact hclt j (Multiset.mem_of_mem_erase hj)
    · simp only [Multiset.card_erase_of_mem hi, Nat.pred_eq_sub_one]
      omega
    · intro j
      simp only [releaseComponentFromCook]
      by_cases hji : j = i
      · subst hji
        rw [List.getD_eq_getElem?_getD, List.getElem?_set_self (by omega)]
        have := hcle j
        simp only [Option.getD_some]
        omega
      · rw [List.getD_eq_getElem?_getD, List.getElem?_set_ne (fun h => hji h.symm),
          ← List.getD_eq_getElem?_getD]
        exact hcle j

lemma stationInv_reachable (numCooks limit : ℕ) (s : StationState)
    (h : StationReachable numCooks limit s) : StationInv numCooks limit s := by
  induction h with
  | refl => exact stationInv_init numCooks limit
  | tail _ hstep ih => exact stationInv_step numCooks limit _ _ ih hstep

/-- Sum of per-cook counts equals the number of cooking components. -/
lemma cooking_card_eq_sum (numCooks limit : ℕ) (s : StationState)
    (hinv : StationInv numCooks limit s) :
    (Multiset.card s.cooking : ℤ) =
      ∑ i ∈ Finset.range numCooks, s.cookCounts.getD i 0 := by
  have h1 : Multiset.card s.cooking = ∑ i ∈ Finset.range numCooks, s.cooking.count i := by
    rw [← Multiset.toFinset_sum_count_eq s.cooking]
    refine Finset.sum_subset ?_ ?_
    · intro x hx
      rw [Finset.mem_range]
      exact hinv.cooking_lt x (Multiset.mem_toFinset.1 hx)
    · intro x _ hx
      rw [Multiset.count_eq_zero]
      intro hmem
      exact hx (Multiset.mem_toFinset.2 hmem)
  rw [h1]
  push_cast
  exact Finset.sum_congr rfl (fun i _ => (hinv.counts_eq i).symm)

/-- Claim C3: in every reachable station state every per-cook concurrent
component count lies between 0 and the configured `cook_concurrency`, and
whenever the cooking process is about to bind a popped component to a cook
(`pending > 0`), `_assign_component_to_cook` succeeds — the
`RuntimeError("No available cook")` branch is unreachable. -/
theorem cook_concurrency_safe (numCooks limit : ℕ) (s : StationState)
    (h : StationReachable numCooks limit s) :
    (∀ i, 0 ≤ s.cookCounts.getD i 0 ∧ s.cookCounts.getD i 0 ≤ (limit : ℤ)) ∧
    (0 < s.pending → assignComponentToCook limit s.cookCounts ≠ none) := by
  have hinv := stationInv_reachable numCooks limit s h
  refine ⟨fun i => ⟨?_, hinv.counts_le i⟩, ?_⟩
  · rw [hinv.counts_eq i]
    positivity
  · intro hp hnone
    rw [assignComponentToCook_eq_none_iff] at hnone
    have hsum : (numCooks : ℤ) * (limit : ℤ) ≤ (Multiset.card s.cooking : ℤ) := by
      rw [cooking_card_eq_sum numCooks limit s hinv]
      calc (numCooks : ℤ) * limit = ∑ _i ∈ Finset.range numCooks, (limit : ℤ) := by
            rw [Finset.sum_const, Finset.card_range]
            ring
        _ ≤ ∑ i ∈ Finset.range numCooks, s.cookCounts.getD i 0 := by
            refine Finset.sum_le_sum ?_
            intro i hi
            rw [Finset.mem_range] at hi
            have hlt : i < s.cookCounts.length := by rw [hinv.length_eq]; exact hi
            have hmem : s.cookCounts.getD i 0 ∈ s.cookCounts := by
              rw [List.getD_eq_getElem?_getD, List.getElem?_eq_getElem hlt]
              exact List.getElem_mem hlt
            exact hnone _ hmem
    have hble := hinv.busy_le
    rw [hinv.busy_eq, hinv.capacity_eq] at hble
    omega

/-- Witness for `cook_concurrency_safe` after one `enqueue` step from a
2-cook, concurrency-2 station. -/
theorem cook_concurrency_safe_witness :
    (∀ i, 0 ≤ ({ initStation 2 2 with
        queued := (initStation 2 2).queued + 1 } : StationState).cookCounts.getD i 0 ∧
      ({ initStation 2 2 with
        queued := (initStation 2 2).queued + 1 } : StationState).cookCounts.getD i 0 ≤
        (2 : ℤ)) ∧
    (0 < ({ initStation 2 2 with
        queued := (initStation 2 2).queued + 1 } : StationState).pending →
      assignComponentToCook 2 ({ initStation 2 2 with
        queued := (initStation 2 2).queued + 1 } : StationState).cookCounts ≠ none) :=
  cook_concurrency_safe 2 2 _
    (Relation.ReflTransGen.single (StationStep.enqueue (initStation 2 2)))

/-- Claim C5: in every reachable station state `0 ≤ busy_slots ≤ capacity`
and the capacity equals the number of cooks assigned to the station times
the per-cook concurrency limit (the `dispatch` step increments `busy_slots`
only under the guard `busy_slots < capacity`, and each completed component
decrements it exactly once in the `complete` step). -/
theorem station_busy_slots_bounds (numCooks limit : ℕ) (s : StationState)
    (h : StationReachable numCooks limit s) :
    0 ≤ s.busySlots ∧ s.busySlots ≤ s.capacity ∧
    s.capacity = (s.cookCounts.length : ℤ) * (limit : ℤ) := by
  have hinv := stationInv_reachable numCooks limit s h
  refine ⟨?_, hinv.busy_le, ?_⟩
  · rw [hinv.busy_eq]
    positivity
  · rw [hinv.capacity_eq, hinv.length_eq]

/-- Witness for `station_busy_slots_bounds` after one `enqueue` step from a
3-cook, concurrency-2 station. -/
theorem station_busy_slots_bounds_witness :
    0 ≤ ({ initStation 3 2 with
        queued := (initStation 3 2).queued + 1 } : StationState).busySlots ∧
    ({ initStation 3 2 with
        queued := (initStation 3 2).queued + 1 } : StationState).busySlots ≤
      ({ initStation 3 2 with
        queued := (initStation 3 2).queued + 1 } : StationState).capacity ∧
    ({ initStation 3 2 with
        queued := (initStation 3 2).queued + 1 } : StationState).capacity =
      (({ initStation 3 2 with
        queued := (initStation 3 2).queued + 1 } : StationState).cookCounts.length : ℤ) *
        (2 : ℤ) :=
  station_busy_slots_bounds 3 2 _
    (Relation.ReflTransGen.single (StationStep.enqueue (initStation 3 2)))

/-! ## Dish completion machine: `_cook_component` / `_dish_components_complete`

One machine per dish.  A component's record mirrors `models.DishComponent`
(`start_time`, `actual_prep_time`, `complete_time`); the dish-level fields
mirror `models.Dish.complete_time` / `prep_time`; `now` is `env.now`, which
the cooperative scheduler only moves forward.  The `start` step is the head
of `_cook_component` (records `start_time` and `actual_prep_time`; the
component's `complete_time` is still `None` there), the `finish` step is its
tail after the prep timeout, including the `component_tracking` check that
calls `_dish_components_complete` exactly when every component of the dish
has completed. -/

/-- `models.DishComponent` timing fields. -/
structure CompState where
  startT : Option ℚ
  actual : Option ℚ
  completeT : Option ℚ
  deriving DecidableEq, Repr

/-- A freshly created component. -/
def compDefault : CompState := ⟨none, none, none⟩

/-- Per-dish state. -/
structure DishState where
  now : ℚ
  comps : List CompState
  dishComplete : Option ℚ
  dishPrep : Option ℚ
  deriving DecidableEq, Repr

/-- `_create_dish_with_components`: `n` components, all timing fields unset. -/
def initDish (n : ℕ) : DishState :=
  { now := 0, comps := List.replicate n compDefault, dishComplete := none, dishPrep := none }

/-- Tail of `_cook_component` for component `i` finishing at time `t`:
record `complete_time`, and when every component of the dish is complete run
`_dish_components_complete` (`prep_time = max` of the recorded actual prep
times, `complete_time = now`). -/
def finishComp (s : DishState) (i : ℕ) (t : ℚ) : DishState :=
  let old := s.comps.getD i compDefault
  let comps' := s.comps.set i { old with completeT := some t }
  if comps'.all (fun c => c.completeT.isSome) then
    { now := t, comps := comps',
      dishComplete := some t,
      dishPrep := match (comps'.filterMap (fun c => c.actual)).max? with
        | some m => some m
        | none => s.dishPrep }
  else
    { now := t, comps := comps', dishComplete := s.dishComplete, dishPrep := s.dishPrep }

/-- Atomic steps of one dish's components. -/
inductive DishStep : DishState → DishState → Prop
  | start (s : DishState) (i : ℕ) (t p : ℚ)
      (hi : i < s.comps.length)
      (hns : (s.comps.getD i compDefault).startT = none)
      (ht : s.now ≤ t) (hp : 0 < p) :
      DishStep s
        { now := t,
          comps := s.comps.set i { startT := some t, actual := some p, completeT := none },
          dishComplete := s.dishComplete, dishPrep := s.dishPrep }
  | finish (s : DishState) (i : ℕ) (t : ℚ)
      (hi : i < s.comps.length)
      (hst : (s.comps.getD i compDefault).actual.isSome)
      (hnc : (s.comps.getD i compDefault).completeT = none)
      (ht : s.now ≤ t) :
      DishStep s (finishComp s i t)

/-- States reachable for a dish created with `n` components. -/
def DishReachable (n : ℕ) (s : DishState) : Prop :=
  Relation.ReflTransGen DishStep (initDish n) s

lemma max?_eq_some_of_mem_of_le {l : List ℚ} {t : ℚ} (hmem : t ∈ l)
    (hle : ∀ x ∈ l, x ≤ t) : l.max? = some t := by
  have : Std.Antisymm (α := ℚ) (· ≤ ·) := ⟨fun h1 h2 => le_antisymm h1 h2⟩
  rw [List.max?_eq_some_iff]
  · exact ⟨hmem, hle⟩
  all_goals simp [le_total]

/-- The inductive invariant of the dish machine. -/
structure DishInv (n : ℕ) (s : DishState) : Prop where
  len : s.comps.length = n
  wf : ∀ c ∈ s.comps, (c.completeT.isSome → c.actual.isSome) ∧
    (c.actual.isSome ↔ c.startT.isSome)
  times : ∀ c ∈ s.comps, ∀ u, c.completeT = some u → u ≤ s.now
  complete_iff : s.dishComplete.isSome ↔ ∀ c ∈ s.comps, c.completeT.isSome
  complete_val : ∀ d, s.dishComplete = some d →
    (s.comps.filterMap (fun c => c.completeT)).max? = some d
  prep_val : s.dishComplete.isSome →
    s.dishPrep = (s.comps.filterMap (fun c => c.actual)).max?

lemma dishInv_init (n : ℕ) (hn : 0 < n) : DishInv n (initDish n) := by
  have hmem : compDefault ∈ List.replicate n compDefault :=
    List.mem_replicate.2 ⟨by omega, rfl⟩
  refine ⟨by simp [initDish], ?_, ?_, ?_, ?_, ?_⟩
  · intro c hc
    have hceq : c = compDefault := List.eq_of_mem_replicate (by simpa [initDish] using hc)
    subst hceq
    simp [compDefault]
  · intro c hc u hu
    have hceq : c = compDefault := List.eq_of_mem_replicate (by simpa [initDish] using hc)
    subst hceq
    simp [compDefault] at hu
  · simp only [initDish, Option.isSome_none, Bool.false_eq_true, false_iff]
    intro hall
    have := hall compDefault hmem
    simp [compDefault] at this
  · intro d hd
    simp [initDish] at hd
  · intro hd
    simp [initDish] at hd

lemma dishInv_step (n : ℕ) (s s' : DishState) (hinv : DishInv n s)
    (hstep : DishStep s s') : DishInv n s' := by
  obtain ⟨hlen, hwf, htimes, hciff, hcval, hpval⟩ := hinv
  cases hstep with
  | start i t p hi hns ht hp =>
    have hmemold : s.comps.getD i compDefault ∈ s.comps := by
      rw [List.getD_eq_getElem?_getD, List.getElem?_eq_getElem hi]
      exact List.getElem_mem hi
    have hnone : s.dishComplete = none := by
      rcases hds : s.dishComplete with _ | d
      · rfl
      · have hall := hciff.1 (by rw [hds]; rfl)
        have h1 := (hwf _ hmemold).2.1 ((hwf _ hmemold).1 (hall _ hmemold))
        rw [hns] at h1
        simp at h1
    refine ⟨by simpa using hlen, ?_, ?_, ?_, ?_, ?_⟩
    · intro c hc
      rcases List.mem_or_eq_of_mem_set hc with hc | rfl
      · exact hwf c hc
      · simp
    · intro c hc u hu
      rcases List.mem_or_eq_of_mem_set hc with hc | rfl
      · exact le_trans (htimes c hc u hu) ht
      · simp at hu
    · simp only [hnone, Option.isSome_none, Bool.false_eq_true, false_iff]
      intro hall
      have hv : (s.comps.set i
          ({ startT := some t, actual := some p, completeT := none } : CompState))[i]? =
          some { startT := some t, actual := some p, completeT := none } := by
        simp [List.getElem?_set_self, hi]
      have hmem' := List.getElem?_mem hv
      have := hall _ hmem'
      simp at this
    · intro d hd
      rw [hnone] at hd
      exact absurd hd (by simp)
    · intro hd
      rw [hnone] at hd
      simp at hd
  | finish i t hi hst hnc ht =>
    have hmemold : s.comps.getD i compDefault ∈ s.comps := by
      rw [List.getD_eq_getElem?_getD, List.getElem?_eq_getElem hi]
      exact List.getElem_mem hi
    have hnone : s.dishComplete = none := by
      rcases hds : s.dishComplete with _ | d
      · rfl
      · have hall := hciff.1 (by rw [hds]; rfl)
        have hx := hall _ hmemold
        rw [hnc] at hx
        simp at hx
    have hwf' : ∀ c ∈ s.comps.set i
        { s.comps.getD i compDefault with completeT := some t },
        (c.completeT.isSome → c.actual.isSome) ∧ (c.actual.isSome ↔ c.startT.isSome) := by
      intro c hc
      rcases List.mem_or_eq_of_mem_set hc with hc | rfl
      · exact hwf c hc
      · exact ⟨fun _ => hst, (hwf _ hmemold).2⟩
    have htimes' : ∀ c ∈ s.comps.set i
        { s.comps.getD i compDefault with completeT := some t },
        ∀ u, c.completeT = some u → u ≤ t := by
      intro c hc u hu
      rcases List.mem_or_eq_of_mem_set hc with hc | rfl
      · exact le_trans (htimes c hc u hu) ht
      · have : some t = some u := hu
        rw [Option.some_inj] at this
        exact le_of_eq this.symm
    have hvmem : ({ s.comps.getD i compDefault with completeT := some t } : CompState) ∈
        s.comps.set i { s.comps.getD i compDefault with completeT := some t } := by
      have hv2 : (s.comps.set i
          ({ s.comps.getD i compDefault with completeT := some t } : CompState))[i]? =
          some { s.comps.getD i compDefault with completeT := some t } := by
        simp [List.getElem?_set_self, hi]
      exact List.getElem?_mem hv2
    by_cases hall : (s.comps.set i
        { s.comps.getD i compDefault with completeT := some t }).all
        (fun c => c.completeT.isSome) = true
    · rw [finishComp]
      simp only [hall, if_true]
      refine ⟨by simpa using hlen, hwf', htimes', ?_, ?_, ?_⟩
      · simp only [Option.isSome_some, true_iff]
        intro c hc
        simpa using List.all_eq_true.1 hall c hc
      · intro d hd
        simp only [Option.some_inj] at hd
        subst hd
        apply max?_eq_some_of_mem_of_le
        · rw [List.mem_filterMap]
          exact ⟨{ s.comps.getD i compDefault with completeT := some t }, hvmem, rfl⟩
        · intro x hx
          rw [List.mem_filterMap] at hx
          obtain ⟨c, hc, hcx⟩ := hx
          exact htimes' c hc x hcx
      · intro _
        cases hm : ((s.comps.set i
            { s.comps.getD i compDefault with completeT := some t }).filterMap
            (fun c => c.actual)).max? with
        | some m => simp [hm]
        | none =>
          exfalso
          rw [List.max?_eq_none_iff] at hm
          obtain ⟨a, ha⟩ := Option.isSome_iff_exists.1 hst
          have hmem2 : a ∈ (s.comps.set i
              { s.comps.getD i compDefault with completeT := some t }).filterMap
              (fun c => c.actual) := by
            rw [List.mem_filterMap]
            exact ⟨{ s.comps.getD i compDefault with completeT := some t }, hvmem, ha⟩
          rw [hm] at hmem2
          simp at hmem2
    · rw [finishComp]
      simp only [hall, if_false]
      have hallb : (s.comps.set i
          { s.comps.getD i compDefault with completeT := some t }).all
          (fun c => c.completeT.isSome) = false := by
        rcases hb : (s.comps.set i
            { s.comps.getD i compDefault with completeT := some t }).all
            (fun c => c.completeT.isSome) with _ | _
        · rfl
        · exact absurd hb hall
      simp only [hallb, Bool.false_eq_true, if_false]
      refine ⟨by simpa using hlen, hwf', htimes', ?_, ?_, ?_⟩
      · rw [hnone]
        simp only [Option.isSome_none, Bool.false_eq_true, false_iff]
        intro hallp
        apply hall
        rw [List.all_eq_true]
        intro c hc
        simpa using hallp c hc
      · intro d hd
        rw [hnone] at hd
        exact absurd hd (by simp)
      · intro hd
        rw [hnone] at hd
        simp at hd

lemma dishInv_reachable (n : ℕ) (hn : 0 < n) (s : DishState)
    (h : DishReachable n s) : DishInv n s := by
  induction h with
  | refl => exact dishInv_init n hn
  | tail _ hstep ih => exact dishInv_step n _ _ ih hstep

/-- Claim C4: for every dish, `complete_time` is set iff every component's
`complete_time` is set; when set it equals the maximum of the components'
completion times, and `prep_time` equals the maximum (never the sum) of the
components' actual prep durations. -/
theorem dish_complete_correct (n : ℕ) (hn : 0 < n) (s : DishState)
    (h : DishReachable n s) :
    (s.dishComplete.isSome ↔ ∀ c ∈ s.comps, c.completeT.isSome) ∧
    (∀ d, s.dishComplete = some d →
      (s.comps.filterMap (fun c => c.completeT)).max? = some d) ∧
    (s.dishComplete.isSome →
      s.dishPrep = (s.comps.filterMap (fun c => c.actual)).max?) := by
  have hinv := dishInv_reachable n hn s h
  exact ⟨hinv.complete_iff, hinv.complete_val, hinv.prep_val⟩

/-- Intermediate state of the demonstration dish: its single component has
started cooking with prep draw 1. -/
def dishDemoMid : DishState :=
  { now := 0,
    comps := (initDish 1).comps.set 0
      { startT := some 0, actual := some 1, completeT := none },
    dishComplete := (initDish 1).dishComplete,
    dishPrep := (initDish 1).dishPrep }

/-- Final state of the demonstration dish: the component finished at time 2. -/
def dishDemoEnd : DishState := finishComp dishDemoMid 0 2

lemma dishDemo_reachable : DishReachable 1 dishDemoEnd :=
  Relation.ReflTransGen.tail
    (Relation.ReflTransGen.single
      (DishStep.start (initDish 1) 0 0 1 (by simp [initDish]) rfl (le_refl 0) (by norm_num)))
    (DishStep.finish dishDemoMid 0 2 (by simp [dishDemoMid, initDish]) rfl rfl
      (by norm_num [dishDemoMid]))

/-- Witness for `dish_complete_correct` on a one-component dish cooked to
completion. -/
theorem dish_complete_correct_witness :
    (dishDemoEnd.dishComplete.isSome ↔ ∀ c ∈ dishDemoEnd.comps, c.completeT.isSome) ∧
    (∀ d, dishDemoEnd.dishComplete = some d →
      (dishDemoEnd.comps.filterMap (fun c => c.completeT)).max? = some d) ∧
    (dishDemoEnd.dishComplete.isSome →
      dishDemoEnd.dishPrep = (dishDemoEnd.comps.filterMap (fun c => c.actual)).max?) :=
  dish_complete_correct 1 (by norm_num) dishDemoEnd dishDemo_reachable

/-! ## Party lifecycle machine: `party_process` and its collaborators

One machine per party, combining every code location that sets this party's
timestamps: `_seat_party` (table-assigned), `_server_process_task`
(ordering/payment/cleanup, and the shared delivery branch),
`_food_runner_process_task` (delivery), `_busser_process_task` (cleanup),
`_expo_check` (all-dishes-ready), and `party_process` itself (kitchen-start,
dining, departure).  `now` is `env.now`; each step is one atomic block
between suspension points, at a time `t ≥ now`.  Counters: `expoCleared` is
`len(order_batching[order_id])`, `deliveryTasksCreated` counts
`_create_delivery_task_for_dish` calls (one per dish clearing expo),
`deliveriesStarted`/`deliveredCount` the delivery tasks that have started
resp. finished (each immediate delivery task carries `num_dishes = 1`). -/

/-- The per-party state (fields of `models.Party` plus enabling flags). -/
structure PartyState where
  now : ℚ
  tableAssigned : Option ℚ
  orderingTaskCreated : Bool
  orderingStart : Option ℚ
  orderingComplete : Option ℚ
  kitchenStart : Option ℚ
  totalDishes : ℕ
  orderCreated : Bool
  expoCleared : ℕ
  allDishesReady : Option ℚ
  deliveryTasksCreated : ℕ
  deliveriesStarted : ℕ
  firstDelivery : Option ℚ
  deliveredCount : ℕ
  allDishesDelivered : Option ℚ
  diningStart : Option ℚ
  diningComplete : Option ℚ
  checkoutCreated : Bool
  paymentStart : Option ℚ
  paymentComplete : Option ℚ
  cleaningCreated : Bool
  cleanupStart : Option ℚ
  departure : Option ℚ
  deriving DecidableEq, Repr

/-- A party arriving at time `t0`, before being seated. -/
def initParty (t0 : ℚ) : PartyState :=
  { now := t0, tableAssigned := none, orderingTaskCreated := false,
    orderingStart := none, orderingComplete := none, kitchenStart := none,
    totalDishes := 0, orderCreated := false, expoCleared := 0,
    allDishesReady := none, deliveryTasksCreated := 0, deliveriesStarted := 0,
    firstDelivery := none, deliveredCount := 0, allDishesDelivered := none,
    diningStart := none, diningComplete := none, checkoutCreated := false,
    paymentStart := none, paymentComplete := none, cleaningCreated := false,
    cleanupStart := none, departure := none }

/-- Atomic steps of one party's lifecycle. -/
inductive PartyStep : PartyState → PartyState → Prop
  | seat (s : PartyState) (t : ℚ) (ht : s.now ≤ t)
      (hg : s.tableAssigned = none) :
      PartyStep s { s with now := t, tableAssigned := some t }
  | createOrderingTask (s : PartyState) (t : ℚ) (ht : s.now ≤ t)
      (hseated : s.tableAssigned ≠ none) (hg : s.orderingTaskCreated = false) :
      PartyStep s { s with now := t, orderingTaskCreated := true }
  | startOrdering (s : PartyState) (t : ℚ) (ht : s.now ≤ t)
      (htask : s.orderingTaskCreated = true) (hg : s.orderingStart = none) :
      PartyStep s { s with now := t, orderingStart := some t }
  | completeOrdering (s : PartyState) (t : ℚ) (ht : s.now ≤ t)
      (hst : s.orderingStart ≠ none) (hg : s.orderingComplete = none) :
      PartyStep s { s with now := t, orderingComplete := some t }
  | placeOrder (s : PartyState) (t : ℚ) (n : ℕ) (ht : s.now ≤ t)
      (hoc : s.orderingComplete ≠ none) (hg : s.orderCreated = false)
      (hn : 1 ≤ n) :
      PartyStep s { s with
        now := t, kitchenStart := some t, totalDishes := n, orderCreated := true }
  | expoClear (s : PartyState) (t : ℚ) (ht : s.now ≤ t)
      (hord : s.orderCreated = true) (hlt : s.expoCleared < s.totalDishes) :
      PartyStep s { s with
        now := t,
        expoCleared := s.expoCleared + 1,
        deliveryTasksCreated := s.deliveryTasksCreated + 1,
        allDishesReady :=
          if s.totalDishes ≤ s.expoCleared + 1 ∧ s.allDishesReady = none
          then some t else s.allDishesReady }
  | startDelivery (s : PartyState) (t : ℚ) (ht : s.now ≤ t)
      (hlt : s.deliveriesStarted < s.deliveryTasksCreated) :
      PartyStep s { s with
        now := t,
        deliveriesStarted := s.deliveriesStarted + 1,
        firstDelivery := if s.firstDelivery = none then some t else s.firstDelivery }
  | completeDelivery (s : PartyState) (t : ℚ) (ht : s.now ≤ t)
      (hlt : s.deliveredCount < s.deliveriesStarted) :
      PartyStep s { s with
        now := t,
        deliveredCount := s.deliveredCount + 1,
        allDishesDelivered :=
          if s.totalDishes ≤ s.deliveredCount + 1 then some t
          else s.allDishesDelivered }
  | startDining (s : PartyState) (t d : ℚ) (ht : s.now ≤ t)
      (hg : s.diningStart = none) (had : s.allDishesDelivered = some d) :
      PartyStep s { s with now := t, diningStart := some d }
  | completeDining (s : PartyState) (t : ℚ) (ht : s.now ≤ t)
      (hst : s.diningStart ≠ none) (hg : s.diningComplete = none) :
      PartyStep s { s with now := t, diningComplete := some t }
  | createCheckout (s : PartyState) (t : ℚ) (ht : s.now ≤ t)
      (hdc : s.diningComplete ≠ none) (hg : s.checkoutCreated = false) :
      PartyStep s { s with now := t, checkoutCreated := true }
  | startPayment (s : PartyState) (t : ℚ) (ht : s.now ≤ t)
      (htask : s.checkoutCreated = true) (hg : s.paymentStart = none) :
      PartyStep s { s with now := t, paymentStart := some t }
  | completePayment (s : PartyState) (t : ℚ) (ht : s.now ≤ t)
      (hst : s.paymentStart ≠ none) (hg : s.paymentComplete = none) :
      PartyStep s { s with now := t, paymentComplete := some t }
  | createCleaning (s : PartyState) (t : ℚ) (ht : s.now ≤ t)
      (hpc : s.paymentComplete ≠ none) (hg : s.cleaningCreated = false) :
      PartyStep s { s with now := t, cleaningCreated := true }
  | startCleanup (s : PartyState) (t : ℚ) (ht : s.now ≤ t)
      (htask : s.cleaningCreated = true) (hg : s.cleanupStart = none) :
      PartyStep s { s with now := t, cleanupStart := some t }
  | depart (s : PartyState) (t : ℚ) (ht : s.now ≤ t)
      (hcs : s.cleanupStart ≠ none) (hg : s.departure = none) :
      PartyStep s { s with now := t, departure := some t }

/-- States reachable for a party arriving at `t0`. -/
def PartyReachable (t0 : ℚ) (s : PartyState) : Prop :=
  Relation.ReflTransGen PartyStep (initParty t0) s

/-- `b` is only ever set after `a`, at a time no earlier than `a`'s. -/
def ledOpt (a b : Option ℚ) : Prop :=
  ∀ v, b = some v → ∃ u, a = some u ∧ u ≤ v

lemma leNow_bump {o : Option ℚ} {n t : ℚ} (h : ∀ v, o = some v → v ≤ n)
    (ht : n ≤ t) : ∀ v, o = some v → v ≤ t :=
  fun v hv => le_trans (h v hv) ht

lemma leNow_self (t : ℚ) : ∀ v, (some t : Option ℚ) = some v → v ≤ t :=
  fun v hv => le_of_eq (Option.some_inj.1 hv).symm

/-- The inductive invariant of the party machine. -/
structure PartyInv (s : PartyState) : Prop where
  ta_now : ∀ v, s.tableAssigned = some v → v ≤ s.now
  os_now : ∀ v, s.orderingStart = some v → v ≤ s.now
  oc_now : ∀ v, s.orderingComplete = some v → v ≤ s.now
  ks_now : ∀ v, s.kitchenStart = some v → v ≤ s.now
  ar_now : ∀ v, s.allDishesReady = some v → v ≤ s.now
  fd_now : ∀ v, s.firstDelivery = some v → v ≤ s.now
  ad_now : ∀ v, s.allDishesDelivered = some v → v ≤ s.now
  ds_now : ∀ v, s.diningStart = some v → v ≤ s.now
  dc_now : ∀ v, s.diningComplete = some v → v ≤ s.now
  ps_now : ∀ v, s.paymentStart = some v → v ≤ s.now
  pc_now : ∀ v, s.paymentComplete = some v → v ≤ s.now
  cs_now : ∀ v, s.cleanupStart = some v → v ≤ s.now
  dp_now : ∀ v, s.departure = some v → v ≤ s.now
  ta_os : ledOpt s.tableAssigned s.orderingStart
  os_oc : ledOpt s.orderingStart s.orderingComplete
  oc_ks : ledOpt s.orderingComplete s.kitchenStart
  ks_ar : ledOpt s.kitchenStart s.allDishesReady
  ar_ad : ledOpt s.allDishesReady s.allDishesDelivered
  ks_fd : ledOpt s.kitchenStart s.firstDelivery
  fd_ad : ledOpt s.firstDelivery s.allDishesDelivered
  ad_ds : ledOpt s.allDishesDelivered s.diningStart
  ds_eq_ad : ∀ v, s.diningStart = some v → s.allDishesDelivered = some v
  ds_dc : ledOpt s.diningStart s.diningComplete
  dc_ps : ledOpt s.diningComplete s.paymentStart
  ps_pc : ledOpt s.paymentStart s.paymentComplete
  pc_cs : ledOpt s.paymentComplete s.cleanupStart
  cs_dp : ledOpt s.cleanupStart s.departure
  otc_ta : s.orderingTaskCreated = true → s.tableAssigned ≠ none
  os_otc : s.orderingStart ≠ none → s.orderingTaskCreated = true
  ord_ks : s.orderCreated = true ↔ s.kitchenStart ≠ none
  ord_total : s.orderCreated = true → 1 ≤ s.totalDishes
  not_ord : s.orderCreated = false → s.expoCleared = 0 ∧ s.totalDishes = 0
  cleared_le : s.expoCleared ≤ s.totalDishes
  dtc_eq : s.deliveryTasksCreated = s.expoCleared
  started_le : s.deliveriesStarted ≤ s.deliveryTasksCreated
  delivered_le : s.deliveredCount ≤ s.deliveriesStarted
  ar_iff : s.allDishesReady ≠ none ↔
    (s.orderCreated = true ∧ s.totalDishes ≤ s.expoCleared)
  ad_iff : s.allDishesDelivered ≠ none ↔
    (s.orderCreated = true ∧ s.totalDishes ≤ s.deliveredCount)
  fd_iff : s.firstDelivery ≠ none ↔ 1 ≤ s.deliveriesStarted
  co_dc : s.checkoutCreated = true → s.diningComplete ≠ none
  ps_co : s.paymentStart ≠ none → s.checkoutCreated = true
  cl_pc : s.cleaningCreated = true → s.paymentComplete ≠ none
  cs_cl : s.cleanupStart ≠ none → s.cleaningCreated = true

lemma partyInv_init (t0 : ℚ) : PartyInv (initParty t0) := by
  refine ⟨?_, ?_, ?_, ?_, ?_, ?_, ?_, ?_, ?_, ?_, ?_, ?_, ?_, ?_, ?_, ?_, ?_, ?_,
    ?_, ?_, ?_, ?_, ?_, ?_, ?_, ?_, ?_, ?_, ?_, ?_, ?_, ?_, ?_, ?_, ?_, ?_, ?_,
    ?_, ?_, ?_, ?_, ?_, ?_⟩ <;>
  simp [initParty, ledOpt]

lemma ledOpt_vacuous {a b c : Option ℚ} (h : ledOpt a b) (ha : a = none) :
    ledOpt c b := by
  intro v hv
  obtain ⟨u, hu, -⟩ := h v hv
  rw [ha] at hu
  exact absurd hu (by simp)

lemma ledOpt_set_later {a : Option ℚ} {n t : ℚ} (ha : a ≠ none)
    (hle : ∀ v, a = some v → v ≤ n) (ht : n ≤ t) : ledOpt a (some t) := by
  intro v hv
  rw [Option.some_inj] at hv
  subst hv
  obtain ⟨u, hu⟩ := Option.ne_none_iff_exists'.1 ha
  exact ⟨u, hu, le_trans (hle u hu) ht⟩

lemma partyInv_step (s s' : PartyState) (hinv : PartyInv s)
    (hstep : PartyStep s s') : PartyInv s' := by
  cases hstep with
  | seat t ht hg =>
    exact {
      ta_now := leNow_self t
      os_now := leNow_bump hinv.os_now ht
      oc_now := leNow_bump hinv.oc_now ht
      ks_now := leNow_bump hinv.ks_now ht
      ar_now := leNow_bump hinv.ar_now ht
      fd_now := leNow_bump hinv.fd_now ht
      ad_now := leNow_bump hinv.ad_now ht
      ds_now := leNow_bump hinv.ds_now ht
      dc_now := leNow_bump hinv.dc_now ht
      ps_now := leNow_bump hinv.ps_now ht
      pc_now := leNow_bump hinv.pc_now ht
      cs_now := leNow_bump hinv.cs_now ht
      dp_now := leNow_bump hinv.dp_now ht
      ta_os := ledOpt_vacuous hinv.ta_os hg
      os_oc := hinv.os_oc
      oc_ks := hinv.oc_ks
      ks_ar := hinv.ks_ar
      ar_ad := hinv.ar_ad
      ks_fd := hinv.ks_fd
      fd_ad := hinv.fd_ad
      ad_ds := hinv.ad_ds
      ds_eq_ad := hinv.ds_eq_ad
      ds_dc := hinv.ds_dc
      dc_ps := hinv.dc_ps
      ps_pc := hinv.ps_pc
      pc_cs := hinv.pc_cs
      cs_dp := hinv.cs_dp
      otc_ta := fun _ => by simp
      os_otc := hinv.os_otc
      ord_ks := hinv.ord_ks
      ord_total := hinv.ord_total
      not_ord := hinv.not_ord
      cleared_le := hinv.cleared_le
      dtc_eq := hinv.dtc_eq
      started_le := hinv.started_le
      delivered_le := hinv.delivered_le
      ar_iff := hinv.ar_iff
      ad_iff := hinv.ad_iff
      fd_iff := hinv.fd_iff
      co_dc := hinv.co_dc
      ps_co := hinv.ps_co
      cl_pc := hinv.cl_pc
      cs_cl := hinv.cs_cl }
  | createOrderingTask t ht hseated hg =>
    exact {
      ta_now := leNow_bump hinv.ta_now ht
      os_now := leNow_bump hinv.os_now ht
      oc_now := leNow_bump hinv.oc_now ht
      ks_now := leNow_bump hinv.ks_now ht
      ar_now := leNow_bump hinv.ar_now ht
      fd_now := leNow_bump hinv.fd_now ht
      ad_now := leNow_bump hinv.ad_now ht
      ds_now := leNow_bump hinv.ds_now ht
      dc_now := leNow_bump hinv.dc_now ht
      ps_now := leNow_bump hinv.ps_now ht
      pc_now := leNow_bump hinv.pc_now ht
      cs_now := leNow_bump hinv.cs_now ht
      dp_now := leNow_bump hinv.dp_now ht
      ta_os := hinv.ta_os
      os_oc := hinv.os_oc
      oc_ks := hinv.oc_ks
      ks_ar := hinv.ks_ar
      ar_ad := hinv.ar_ad
      ks_fd := hinv.ks_fd
      fd_ad := hinv.fd_ad
      ad_ds := hinv.ad_ds
      ds_eq_ad := hinv.ds_eq_ad
      ds_dc := hinv.ds_dc
      dc_ps := hinv.dc_ps
      ps_pc := hinv.ps_pc
      pc_cs := hinv.pc_cs
      cs_dp := hinv.cs_dp
      otc_ta := fun _ => hseated
      os_otc := fun _ => rfl
      ord_ks := hinv.ord_ks
      ord_total := hinv.ord_total
      not_ord := hinv.not_ord
      cleared_le := hinv.cleared_le
      dtc_eq := hinv.dtc_eq
      started_le := hinv.started_le
      delivered_le := hinv.delivered_le
      ar_iff := hinv.ar_iff
      ad_iff := hinv.ad_iff
      fd_iff := hinv.fd_iff
      co_dc := hinv.co_dc
      ps_co := hinv.ps_co
      cl_pc := hinv.cl_pc
      cs_cl := hinv.cs_cl }
  | startOrdering t ht htask hg =>
    exact {
      ta_now := leNow_bump hinv.ta_now ht
      os_now := leNow_self t
      oc_now := leNow_bump hinv.oc_now ht
      ks_now := leNow_bump hinv.ks_now ht
      ar_now := leNow_bump hinv.ar_now ht
      fd_now := leNow_bump hinv.fd_now ht
      ad_now := leNow_bump hinv.ad_now ht
      ds_now := leNow_bump hinv.ds_now ht
      dc_now := leNow_bump hinv.dc_now ht
      ps_now := leNow_bump hinv.ps_now ht
      pc_now := leNow_bump hinv.pc_now ht
      cs_now := leNow_bump hinv.cs_now ht
      dp_now := leNow_bump hinv.dp_now ht
      ta_os := ledOpt_set_later (hinv.otc_ta htask) hinv.ta_now ht
      os_oc := ledOpt_vacuous hinv.os_oc hg
      oc_ks := hinv.oc_ks
      ks_ar := hinv.ks_ar
      ar_ad := hinv.ar_ad
      ks_fd := hinv.ks_fd
      fd_ad := hinv.fd_ad
      ad_ds := hinv.ad_ds
      ds_eq_ad := hinv.ds_eq_ad
      ds_dc := hinv.ds_dc
      dc_ps := hinv.dc_ps
      ps_pc := hinv.ps_pc
      pc_cs := hinv.pc_cs
      cs_dp := hinv.cs_dp
      otc_ta := hinv.otc_ta
      os_otc := fun _ => htask
      ord_ks := hinv.ord_ks
      ord_total := hinv.ord_total
      not_ord := hinv.not_ord
      cleared_le := hinv.cleared_le
      dtc_eq := hinv.dtc_eq
      started_le := hinv.started_le
      delivered_le := hinv.delivered_le
      ar_iff := hinv.ar_iff
      ad_iff := hinv.ad_iff
      fd_iff := hinv.fd_iff
      co_dc := hinv.co_dc
      ps_co := hinv.ps_co
      cl_pc := hinv.cl_pc
      cs_cl := hinv.cs_cl }
  | completeOrdering t ht hst hg =>
    exact {
      ta_now := leNow_bump hinv.ta_now ht
      os_now := leNow_bump hinv.os_now ht
      oc_now := leNow_self t
      ks_now := leNow_bump hinv.ks_now ht
      ar_now := leNow_bump hinv.ar_now ht
      fd_now := leNow_bump hinv.fd_now ht
      ad_now := leNow_bump hinv.ad_now ht
      ds_now := leNow_bump hinv.ds_now ht
      dc_now := leNow_bump hinv.dc_now ht
      ps_now := leNow_bump hinv.ps_now ht
      pc_now := leNow_bump hinv.pc_now ht
      cs_now := leNow_bump hinv.cs_now ht
      dp_now := leNow_bump hinv.dp_now ht
      ta_os := hinv.ta_os
      os_oc := ledOpt_set_later hst hinv.os_now ht
      oc_ks := ledOpt_vacuous hinv.oc_ks hg
      ks_ar := hinv.ks_ar
      ar_ad := hinv.ar_ad
      ks_fd := hinv.ks_fd
      fd_ad := hinv.fd_ad
      ad_ds := hinv.ad_ds
      ds_eq_ad := hinv.ds_eq_ad
      ds_dc := hinv.ds_dc
      dc_ps := hinv.dc_ps
      ps_pc := hinv.ps_pc
      pc_cs := hinv.pc_cs
      cs_dp := hinv.cs_dp
      otc_ta := hinv.otc_ta
      os_otc := hinv.os_otc
      ord_ks := hinv.ord_ks
      ord_total := hinv.ord_total
      not_ord := hinv.not_ord
      cleared_le := hinv.cleared_le
      dtc_eq := hinv.dtc_eq
      started_le := hinv.started_le
      delivered_le := hinv.delivered_le
      ar_iff := hinv.ar_iff
      ad_iff := hinv.ad_iff
      fd_iff := hinv.fd_iff
      co_dc := hinv.co_dc
      ps_co := hinv.ps_co
      cl_pc := hinv.cl_pc
      cs_cl := hinv.cs_cl }
  | placeOrder t n ht hoc hg hn =>
    have har : s.allDishesReady = none := by
      rcases hb : s.allDishesReady with _ | v
      · rfl
      · exact absurd (hinv.ar_iff.1 (by rw [hb]; simp)).1 (by rw [hg]; simp)
    have had : s.allDishesDelivered = none := by
      rcases hb : s.allDishesDelivered with _ | v
      · rfl
      · exact absurd (hinv.ad_iff.1 (by rw [hb]; simp)).1 (by rw [hg]; simp)
    have hfd : s.firstDelivery = none := by
      rcases hb : s.firstDelivery with _ | v
      · rfl
      · have h1 := hinv.fd_iff.1 (by rw [hb]; simp)
        have h2 := hinv.not_ord hg
        have h3 := hinv.started_le
        have h4 := hinv.dtc_eq
        omega
    have hc0 := hinv.not_ord hg
    exact {
      ta_now := leNow_bump hinv.ta_now ht
      os_now := leNow_bump hinv.os_now ht
      oc_now := leNow_bump hinv.oc_now ht
      ks_now := leNow_self t
      ar_now := leNow_bump hinv.ar_now ht
      fd_now := leNow_bump hinv.fd_now ht
      ad_now := leNow_bump hinv.ad_now ht
      ds_now := leNow_bump hinv.ds_now ht
      dc_now := leNow_bump hinv.dc_now ht
      ps_now := leNow_bump hinv.ps_now ht
      pc_now := leNow_bump hinv.pc_now ht
      cs_now := leNow_bump hinv.cs_now ht
      dp_now := leNow_bump hinv.dp_now ht
      ta_os := hinv.ta_os
      os_oc := hinv.os_oc
      oc_ks := ledOpt_set_later hoc hinv.oc_now ht
      ks_ar := by
        intro v hv
        rw [har] at hv
        exact absurd hv (by simp)
      ar_ad := hinv.ar_ad
      ks_fd := by
        intro v hv
        rw [hfd] at hv
        exact absurd hv (by simp)
      fd_ad := hinv.fd_ad
      ad_ds := hinv.ad_ds
      ds_eq_ad := hinv.ds_eq_ad
      ds_dc := hinv.ds_dc
      dc_ps := hinv.dc_ps
      ps_pc := hinv.ps_pc
      pc_cs := hinv.pc_cs
      cs_dp := hinv.cs_dp
      otc_ta := hinv.otc_ta
      os_otc := hinv.os_otc
      ord_ks := by simp
      ord_total := fun _ => hn
      not_ord := fun h => absurd h (by simp)
      cleared_le := by
        show s.expoCleared ≤ n
        omega
      dtc_eq := hinv.dtc_eq
      started_le := hinv.started_le
      delivered_le := hinv.delivered_le
      ar_iff := by
        show s.allDishesReady ≠ none ↔ (true = true ∧ n ≤ s.expoCleared)
        rw [har]
        constructor
        · intro h
          exact absurd rfl h
        · rintro ⟨-, hle⟩
          omega
      ad_iff := by
        show s.allDishesDelivered ≠ none ↔ (true = true ∧ n ≤ s.deliveredCount)
        rw [had]
        constructor
        · intro h
          exact absurd rfl h
        · rintro ⟨-, hle⟩
          have h3 := hinv.delivered_le
          have h4 := hinv.started_le
          have h5 := hinv.dtc_eq
          omega
      fd_iff := hinv.fd_iff
      co_dc := hinv.co_dc
      ps_co := hinv.ps_co
      cl_pc := hinv.cl_pc
      cs_cl := hinv.cs_cl }
  | expoClear t ht hord hlt =>
    exact {
      ta_now := leNow_bump hinv.ta_now ht
      os_now := leNow_bump hinv.os_now ht
      oc_now := leNow_bump hinv.oc_now ht
      ks_now := leNow_bump hinv.ks_now ht
      ar_now := by
        intro v hv
        by_cases hc : s.totalDishes ≤ s.expoCleared + 1 ∧ s.allDishesReady = none
        · rw [if_pos hc] at hv
          exact le_of_eq (Option.some_inj.1 hv).symm
        · rw [if_neg hc] at hv
          exact le_trans (hinv.ar_now v hv) ht
      fd_now := leNow_bump hinv.fd_now ht
      ad_now := leNow_bump hinv.ad_now ht
      ds_now := leNow_bump hinv.ds_now ht
      dc_now := leNow_bump hinv.dc_now ht
      ps_now := leNow_bump hinv.ps_now ht
      pc_now := leNow_bump hinv.pc_now ht
      cs_now := leNow_bump hinv.cs_now ht
      dp_now := leNow_bump hinv.dp_now ht
      ta_os := hinv.ta_os
      os_oc := hinv.os_oc
      oc_ks := hinv.oc_ks
      ks_ar := by
        by_cases hc : s.totalDishes ≤ s.expoCleared + 1 ∧ s.allDishesReady = none
        · simp only [if_pos hc]
          exact ledOpt_set_later (hinv.ord_ks.1 hord) hinv.ks_now ht
        · simp only [if_neg hc]
          exact hinv.ks_ar
      ar_ad := by
        intro v hv
        by_cases hc : s.totalDishes ≤ s.expoCleared + 1 ∧ s.allDishesReady = none
        · obtain ⟨u, hu, -⟩ := hinv.ar_ad v hv
          rw [hc.2] at hu
          exact absurd hu (by simp)
        · simp only [if_neg hc]
          exact hinv.ar_ad v hv
      ks_fd := hinv.ks_fd
      fd_ad := hinv.fd_ad
      ad_ds := hinv.ad_ds
      ds_eq_ad := hinv.ds_eq_ad
      ds_dc := hinv.ds_dc
      dc_ps := hinv.dc_ps
      ps_pc := hinv.ps_pc
      pc_cs := hinv.pc_cs
      cs_dp := hinv.cs_dp
      otc_ta := hinv.otc_ta
      os_otc := hinv.os_otc
      ord_ks := hinv.ord_ks
      ord_total := hinv.ord_total
      not_ord := fun h => absurd (hord.symm.trans h) (by simp)
      cleared_le := by
        show s.expoCleared + 1 ≤ s.totalDishes
        omega
      dtc_eq := by
        show s.deliveryTasksCreated + 1 = s.expoCleared + 1
        rw [hinv.dtc_eq]
      started_le := by
        show s.deliveriesStarted ≤ s.deliveryTasksCreated + 1
        have := hinv.started_le
        omega
      delivered_le := hinv.delivered_le
      ar_iff := by
        show (if s.totalDishes ≤ s.expoCleared + 1 ∧ s.allDishesReady = none
            then some t else s.allDishesReady) ≠ none ↔
          (s.orderCreated = true ∧ s.totalDishes ≤ s.expoCleared + 1)
        by_cases hc : s.totalDishes ≤ s.expoCleared + 1 ∧ s.allDishesReady = none
        · simp only [if_pos hc]
          constructor
          · intro _
            exact ⟨hord, hc.1⟩
          · intro _
            simp
        · simp only [if_neg hc]
          push_neg at hc
          constructor
          · intro h
            have h2 := hinv.ar_iff.1 h
            exact ⟨h2.1, by omega⟩
          · rintro ⟨-, h2⟩
            exact hc h2
      ad_iff := hinv.ad_iff
      fd_iff := hinv.fd_iff
      co_dc := hinv.co_dc
      ps_co := hinv.ps_co
      cl_pc := hinv.cl_pc
      cs_cl := hinv.cs_cl }
  | startDelivery t ht hlt =>
    have hord : s.orderCreated = true := by
      rcases hb : s.orderCreated with _ | _
      · have h1 := hinv.not_ord hb
        have h2 := hinv.dtc_eq
        omega
      · rfl
    exact {
      ta_now := leNow_bump hinv.ta_now ht
      os_now := leNow_bump hinv.os_now ht
      oc_now := leNow_bump hinv.oc_now ht
      ks_now := leNow_bump hinv.ks_now ht
      ar_now := leNow_bump hinv.ar_now ht
      fd_now := by
        intro v hv
        by_cases hc : s.firstDelivery = none
        · rw [if_pos hc] at hv
          exact le_of_eq (Option.some_inj.1 hv).symm
        · rw [if_neg hc] at hv
          exact le_trans (hinv.fd_now v hv) ht
      ad_now := leNow_bump hinv.ad_now ht
      ds_now := leNow_bump hinv.ds_now ht
      dc_now := leNow_bump hinv.dc_now ht
      ps_now := leNow_bump hinv.ps_now ht
      pc_now := leNow_bump hinv.pc_now ht
      cs_now := leNow_bump hinv.cs_now ht
      dp_now := leNow_bump hinv.dp_now ht
      ta_os := hinv.ta_os
      os_oc := hinv.os_oc
      oc_ks := hinv.oc_ks
      ks_ar := hinv.ks_ar
      ar_ad := hinv.ar_ad
      ks_fd := by
        by_cases hc : s.firstDelivery = none
        · simp only [if_pos hc]
          exact ledOpt_set_later (hinv.ord_ks.1 hord) hinv.ks_now ht
        · simp only [if_neg hc]
          exact hinv.ks_fd
      fd_ad := by
        intro v hv
        by_cases hc : s.firstDelivery = none
        · obtain ⟨u, hu, -⟩ := hinv.fd_ad v hv
          rw [hc] at hu
          exact absurd hu (by simp)
        · simp only [if_neg hc]
          exact hinv.fd_ad v hv
      ad_ds := hinv.ad_ds
      ds_eq_ad := hinv.ds_eq_ad
      ds_dc := hinv.ds_dc
      dc_ps := hinv.dc_ps
      ps_pc := hinv.ps_pc
      pc_cs := hinv.pc_cs
      cs_dp := hinv.cs_dp
      otc_ta := hinv.otc_ta
      os_otc := hinv.os_otc
      ord_ks := hinv.ord_ks
      ord_total := hinv.ord_total
      not_ord := hinv.not_ord
      cleared_le := hinv.cleared_le
      dtc_eq := hinv.dtc_eq
      started_le := by
        show s.deliveriesStarted + 1 ≤ s.deliveryTasksCreated
        omega
      delivered_le := by
        show s.deliveredCount ≤ s.deliveriesStarted + 1
        have := hinv.delivered_le
        omega
      ar_iff := hinv.ar_iff
      ad_iff := hinv.ad_iff
      fd_iff := by
        show (if s.firstDelivery = none then some t else s.firstDelivery) ≠ none ↔
          1 ≤ s.deliveriesStarted + 1
        by_cases hc : s.firstDelivery = none
        · simp only [if_pos hc]
          constructor
          · intro _
            omega
          · intro _
            simp
        · simp only [if_neg hc]
          constructor
          · intro _
            omega
          · intro _
            exact hc
      co_dc := hinv.co_dc
      ps_co := hinv.ps_co
      cl_pc := hinv.cl_pc
      cs_cl := hinv.cs_cl }
  | completeDelivery t ht hlt =>
    have hord : s.orderCreated = true := by
      rcases hb : s.orderCreated with _ | _
      · have h1 := hinv.not_ord hb
        have h2 := hinv.dtc_eq
        have h3 := hinv.started_le
        omega
      · rfl
    have hcounts : s.deliveredCount < s.deliveriesStarted ∧
        s.deliveriesStarted ≤ s.deliveryTasksCreated ∧
        s.deliveryTasksCreated = s.expoCleared ∧
        s.expoCleared ≤ s.totalDishes :=
      ⟨hlt, hinv.started_le, hinv.dtc_eq, hinv.cleared_le⟩
    exact {
      ta_now := leNow_bump hinv.ta_now ht
      os_now := leNow_bump hinv.os_now ht
      oc_now := leNow_bump hinv.oc_now ht
      ks_now := leNow_bump hinv.ks_now ht
      ar_now := leNow_bump hinv.ar_now ht
      fd_now := leNow_bump hinv.fd_now ht
      ad_now := by
        intro v hv
        by_cases hc : s.totalDishes ≤ s.deliveredCount + 1
        · rw [if_pos hc] at hv
          exact le_of_eq (Option.some_inj.1 hv).symm
        · rw [if_neg hc] at hv
          exact le_trans (hinv.ad_now v hv) ht
      ds_now := leNow_bump hinv.ds_now ht
      dc_now := leNow_bump hinv.dc_now ht
      ps_now := leNow_bump hinv.ps_now ht
      pc_now := leNow_bump hinv.pc_now ht
      cs_now := leNow_bump hinv.cs_now ht
      dp_now := leNow_bump hinv.dp_now ht
      ta_os := hinv.ta_os
      os_oc := hinv.os_oc
      oc_ks := hinv.oc_ks
      ks_ar := hinv.ks_ar
      ar_ad := by
        by_cases hc : s.totalDishes ≤ s.deliveredCount + 1
        · simp only [if_pos hc]
          have har : s.allDishesReady ≠ none :=
            hinv.ar_iff.2 ⟨hord, by omega⟩
          exact ledOpt_set_later har hinv.ar_now ht
        · simp only [if_neg hc]
          exact hinv.ar_ad
      ks_fd := hinv.ks_fd
      fd_ad := by
        by_cases hc : s.totalDishes ≤ s.deliveredCount + 1
        · simp only [if_pos hc]
          have hfd : s.firstDelivery ≠ none := hinv.fd_iff.2 (by omega)
          exact ledOpt_set_later hfd hinv.fd_now ht
        · simp only [if_neg hc]
          exact hinv.fd_ad
      ad_ds := by
        intro v hv
        by_cases hc : s.totalDishes ≤ s.deliveredCount + 1
        · exfalso
          have had := hinv.ds_eq_ad v hv
          have h2 := (hinv.ad_iff.1 (by rw [had]; simp)).2
          obtain ⟨hc1, hc2, hc3, hc4⟩ := hcounts
          omega
        · simp only [if_neg hc]
          exact hinv.ad_ds v hv
      ds_eq_ad := by
        intro v hv
        by_cases hc : s.totalDishes ≤ s.deliveredCount + 1
        · exfalso
          have had := hinv.ds_eq_ad v hv
          have h2 := (hinv.ad_iff.1 (by rw [had]; simp)).2
          obtain ⟨hc1, hc2, hc3, hc4⟩ := hcounts
          omega
        · simp only [if_neg hc]
          exact hinv.ds_eq_ad v hv
      ds_dc := hinv.ds_dc
      dc_ps := hinv.dc_ps
      ps_pc := hinv.ps_pc
      pc_cs := hinv.pc_cs
      cs_dp := hinv.cs_dp
      otc_ta := hinv.otc_ta
      os_otc := hinv.os_otc
      ord_ks := hinv.ord_ks
      ord_total := hinv.ord_total
      not_ord := fun h => absurd (hord.symm.trans h) (by simp)
      cleared_le := hinv.cleared_le
      dtc_eq := hinv.dtc_eq
      started_le := hinv.started_le
      delivered_le := by
        show s.deliveredCount + 1 ≤ s.deliveriesStarted
        omega
      ar_iff := hinv.ar_iff
      ad_iff := by
        show (if s.totalDishes ≤ s.deliveredCount + 1 then some t
            else s.allDishesDelivered) ≠ none ↔
          (s.orderCreated = true ∧ s.totalDishes ≤ s.deliveredCount + 1)
        by_cases hc : s.totalDishes ≤ s.deliveredCount + 1
        · simp only [if_pos hc]
          constructor
          · intro _
            exact ⟨hord, hc⟩
          · intro _
            simp
        · simp only [if_neg hc]
          constructor
          · intro h
            have h2 := hinv.ad_iff.1 h
            exact ⟨h2.1, by omega⟩
          · rintro ⟨-, h2⟩
            exact absurd h2 hc
      fd_iff := hinv.fd_iff
      co_dc := hinv.co_dc
      ps_co := hinv.ps_co
      cl_pc := hinv.cl_pc
      cs_cl := hinv.cs_cl }
  | startDining t d ht hg had =>
    exact {
      ta_now := leNow_bump hinv.ta_now ht
      os_now := leNow_bump hinv.os_now ht
      oc_now := leNow_bump hinv.oc_now ht
      ks_now := leNow_bump hinv.ks_now ht
      ar_now := leNow_bump hinv.ar_now ht
      fd_now := leNow_bump hinv.fd_now ht
      ad_now := leNow_bump hinv.ad_now ht
      ds_now := by
        intro v hv
        rw [Option.some_inj] at hv
        subst hv
        exact le_trans (hinv.ad_now d had) ht
      dc_now := leNow_bump hinv.dc_now ht
      ps_now := leNow_bump hinv.ps_now ht
      pc_now := leNow_bump hinv.pc_now ht
      cs_now := leNow_bump hinv.cs_now ht
      dp_now := leNow_bump hinv.dp_now ht
      ta_os := hinv.ta_os
      os_oc := hinv.os_oc
      oc_ks := hinv.oc_ks
      ks_ar := hinv.ks_ar
      ar_ad := hinv.ar_ad
      ks_fd := hinv.ks_fd
      fd_ad := hinv.fd_ad
      ad_ds := by
        intro v hv
        rw [Option.some_inj] at hv
        subst hv
        exact ⟨d, had, le_refl d⟩
      ds_eq_ad := by
        intro v hv
        rw [Option.some_inj] at hv
        subst hv
        exact had
      ds_dc := ledOpt_vacuous hinv.ds_dc hg
      dc_ps := hinv.dc_ps
      ps_pc := hinv.ps_pc
      pc_cs := hinv.pc_cs
      cs_dp := hinv.cs_dp
      otc_ta := hinv.otc_ta
      os_otc := hinv.os_otc
      ord_ks := hinv.ord_ks
      ord_total := hinv.ord_total
      not_ord := hinv.not_ord
      cleared_le := hinv.cleared_le
      dtc_eq := hinv.dtc_eq
      started_le := hinv.started_le
      delivered_le := hinv.delivered_le
      ar_iff := hinv.ar_iff
      ad_iff := hinv.ad_iff
      fd_iff := hinv.fd_iff
      co_dc := hinv.co_dc
      ps_co := hinv.ps_co
      cl_pc := hinv.cl_pc
      cs_cl := hinv.cs_cl }
  | completeDining t ht hst hg =>
    exact {
      ta_now := leNow_bump hinv.ta_now ht
      os_now := leNow_bump hinv.os_now ht
      oc_now := leNow_bump hinv.oc_now ht
      ks_now := leNow_bump hinv.ks_now ht
      ar_now := leNow_bump hinv.ar_now ht
      fd_now := leNow_bump hinv.fd_now ht
      ad_now := leNow_bump hinv.ad_now ht
      ds_now := leNow_bump hinv.ds_now ht
      dc_now := leNow_self t
      ps_now := leNow_bump hinv.ps_now ht
      pc_now := leNow_bump hinv.pc_now ht
      cs_now := leNow_bump hinv.cs_now ht
      dp_now := leNow_bump hinv.dp_now ht
      ta_os := hinv.ta_os
      os_oc := hinv.os_oc
      oc_ks := hinv.oc_ks
      ks_ar := hinv.ks_ar
      ar_ad := hinv.ar_ad
      ks_fd := hinv.ks_fd
      fd_ad := hinv.fd_ad
      ad_ds := hinv.ad_ds
      ds_eq_ad := hinv.ds_eq_ad
      ds_dc := ledOpt_set_later hst hinv.ds_now ht
      dc_ps := ledOpt_vacuous hinv.dc_ps hg
      ps_pc := hinv.ps_pc
      pc_cs := hinv.pc_cs
      cs_dp := hinv.cs_dp
      otc_ta := hinv.otc_ta
      os_otc := hinv.os_otc
      ord_ks := hinv.ord_ks
      ord_total := hinv.ord_total
      not_ord := hinv.not_ord
      cleared_le := hinv.cleared_le
      dtc_eq := hinv.dtc_eq
      started_le := hinv.started_le
      delivered_le := hinv.delivered_le
      ar_iff := hinv.ar_iff
      ad_iff := hinv.ad_iff
      fd_iff := hinv.fd_iff
      co_dc := fun _ => by simp
      ps_co := hinv.ps_co
      cl_pc := hinv.cl_pc
      cs_cl := hinv.cs_cl }
  | createCheckout t ht hdc hg =>
    exact {
      ta_now := leNow_bump hinv.ta_now ht
      os_now := leNow_bump hinv.os_now ht
      oc_now := leNow_bump hinv.oc_now ht
      ks_now := leNow_bump hinv.ks_now ht
      ar_now := leNow_bump hinv.ar_now ht
      fd_now := leNow_bump hinv.fd_now ht
      ad_now := leNow_bump hinv.ad_now ht
      ds_now := leNow_bump hinv.ds_now ht
      dc_now := leNow_bump hinv.dc_now ht
      ps_now := leNow_bump hinv.ps_now ht
      pc_now := leNow_bump hinv.pc_now ht
      cs_now := leNow_bump hinv.cs_now ht
      dp_now := leNow_bump hinv.dp_now ht
      ta_os := hinv.ta_os
      os_oc := hinv.os_oc
      oc_ks := hinv.oc_ks
      ks_ar := hinv.ks_ar
      ar_ad := hinv.ar_ad
      ks_fd := hinv.ks_fd
      fd_ad := hinv.fd_ad
      ad_ds := hinv.ad_ds
      ds_eq_ad := hinv.ds_eq_ad
      ds_dc := hinv.ds_dc
      dc_ps := hinv.dc_ps
      ps_pc := hinv.ps_pc
      pc_cs := hinv.pc_cs
      cs_dp := hinv.cs_dp
      otc_ta := hinv.otc_ta
      os_otc := hinv.os_otc
      ord_ks := hinv.ord_ks
      ord_total := hinv.ord_total
      not_ord := hinv.not_ord
      cleared_le := hinv.cleared_le
      dtc_eq := hinv.dtc_eq
      started_le := hinv.started_le
      delivered_le := hinv.delivered_le
      ar_iff := hinv.ar_iff
      ad_iff := hinv.ad_iff
      fd_iff := hinv.fd_iff
      co_dc := fun _ => hdc
      ps_co := fun _ => rfl
      cl_pc := hinv.cl_pc
      cs_cl := hinv.cs_cl }
  | startPayment t ht htask hg =>
    exact {
      ta_now := leNow_bump hinv.ta_now ht
      os_now := leNow_bump hinv.os_now ht
      oc_now := leNow_bump hinv.oc_now ht
      ks_now := leNow_bump hinv.ks_now ht
      ar_now := leNow_bump hinv.ar_now ht
      fd_now := leNow_bump hinv.fd_now ht
      ad_now := leNow_bump hinv.ad_now ht
      ds_now := leNow_bump hinv.ds_now ht
      dc_now := leNow_bump hinv.dc_now ht
      ps_now := leNow_self t
      pc_now := leNow_bump hinv.pc_now ht
      cs_now := leNow_bump hinv.cs_now ht
      dp_now := leNow_bump hinv.dp_now ht
      ta_os := hinv.ta_os
      os_oc := hinv.os_oc
      oc_ks := hinv.oc_ks
      ks_ar := hinv.ks_ar
      ar_ad := hinv.ar_ad
      ks_fd := hinv.ks_fd
      fd_ad := hinv.fd_ad
      ad_ds := hinv.ad_ds
      ds_eq_ad := hinv.ds_eq_ad
      ds_dc := hinv.ds_dc
      dc_ps := ledOpt_set_later (hinv.co_dc htask) hinv.dc_now ht
      ps_pc := ledOpt_vacuous hinv.ps_pc hg
      pc_cs := hinv.pc_cs
      cs_dp := hinv.cs_dp
      otc_ta := hinv.otc_ta
      os_otc := hinv.os_otc
      ord_ks := hinv.ord_ks
      ord_total := hinv.ord_total
      not_ord := hinv.not_ord
      cleared_le := hinv.cleared_le
      dtc_eq := hinv.dtc_eq
      started_le := hinv.started_le
      delivered_le := hinv.delivered_le
      ar_iff := hinv.ar_iff
      ad_iff := hinv.ad_iff
      fd_iff := hinv.fd_iff
      co_dc := hinv.co_dc
      ps_co := fun _ => htask
      cl_pc := hinv.cl_pc
      cs_cl := hinv.cs_cl }
  | completePayment t ht hst hg =>
    exact {
      ta_now := leNow_bump hinv.ta_now ht
      os_now := leNow_bump hinv.os_now ht
      oc_now := leNow_bump hinv.oc_now ht
      ks_now := leNow_bump hinv.ks_now ht
      ar_now := leNow_bump hinv.ar_now ht
      fd_now := leNow_bump hinv.fd_now ht
      ad_now := leNow_bump hinv.ad_now ht
      ds_now := leNow_bump hinv.ds_now ht
      dc_now := leNow_bump hinv.dc_now ht
      ps_now := leNow_bump hinv.ps_now ht
      pc_now := leNow_self t
      cs_now := leNow_bump hinv.cs_now ht
      dp_now := leNow_bump hinv.dp_now ht
      ta_os := hinv.ta_os
      os_oc := hinv.os_oc
      oc_ks := hinv.oc_ks
      ks_ar := hinv.ks_ar
      ar_ad := hinv.ar_ad
      ks_fd := hinv.ks_fd
      fd_ad := hinv.fd_ad
      ad_ds := hinv.ad_ds
      ds_eq_ad := hinv.ds_eq_ad
      ds_dc := hinv.ds_dc
      dc_ps := hinv.dc_ps
      ps_pc := ledOpt_set_later hst hinv.ps_now ht
      pc_cs := ledOpt_vacuous hinv.pc_cs hg
      cs_dp := hinv.cs_dp
      otc_ta := hinv.otc_ta
      os_otc := hinv.os_otc
      ord_ks := hinv.ord_ks
      ord_total := hinv.ord_total
      not_ord := hinv.not_ord
      cleared_le := hinv.cleared_le
      dtc_eq := hinv.dtc_eq
      started_le := hinv.started_le
      delivered_le := hinv.delivered_le
      ar_iff := hinv.ar_iff
      ad_iff := hinv.ad_iff
      fd_iff := hinv.fd_iff
      co_dc := hinv.co_dc
      ps_co := hinv.ps_co
      cl_pc := fun _ => by simp
      cs_cl := hinv.cs_cl }
  | createCleaning t ht hpc hg =>
    exact {
      ta_now := leNow_bump hinv.ta_now ht
      os_now := leNow_bump hinv.os_now ht
      oc_now := leNow_bump hinv.oc_now ht
      ks_now := leNow_bump hinv.ks_now ht
      ar_now := leNow_bump hinv.ar_now ht
      fd_now := leNow_bump hinv.fd_now ht
      ad_now := leNow_bump hinv.ad_now ht
      ds_now := leNow_bump hinv.ds_now ht
      dc_now := leNow_bump hinv.dc_now ht
      ps_now := leNow_bump hinv.ps_now ht
      pc_now := leNow_bump hinv.pc_now ht
      cs_now := leNow_bump hinv.cs_now ht
      dp_now := leNow_bump hinv.dp_now ht
      ta_os := hinv.ta_os
      os_oc := hinv.os_oc
      oc_ks := hinv.oc_ks
      ks_ar := hinv.ks_ar
      ar_ad := hinv.ar_ad
      ks_fd := hinv.ks_fd
      fd_ad := hinv.fd_ad
      ad_ds := hinv.ad_ds
      ds_eq_ad := hinv.ds_eq_ad
      ds_dc := hinv.ds_dc
      dc_ps := hinv.dc_ps
      ps_pc := hinv.ps_pc
      pc_cs := hinv.pc_cs
      cs_dp := hinv.cs_dp
      otc_ta := hinv.otc_ta
      os_otc := hinv.os_otc
      ord_ks := hinv.ord_ks
      ord_total := hinv.ord_total
      not_ord := hinv.not_ord
      cleared_le := hinv.cleared_le
      dtc_eq := hinv.dtc_eq
      started_le := hinv.started_le
      delivered_le := hinv.delivered_le
      ar_iff := hinv.ar_iff
      ad_iff := hinv.ad_iff
      fd_iff := hinv.fd_iff
      co_dc := hinv.co_dc
      ps_co := hinv.ps_co
      cl_pc := fun _ => hpc
      cs_cl := fun _ => rfl }
  | startCleanup t ht htask hg =>
    exact {
      ta_now := leNow_bump hinv.ta_now ht
      os_now := leNow_bump hinv.os_now ht
      oc_now := leNow_bump hinv.oc_now ht
      ks_now := leNow_bump hinv.ks_now ht
      ar_now := leNow_bump hinv.ar_now ht
      fd_now := leNow_bump hinv.fd_now ht
      ad_now := leNow_bump hinv.ad_now ht
      ds_now := leNow_bump hinv.ds_now ht
      dc_now := leNow_bump hinv.dc_now ht
      ps_now := leNow_bump hinv.ps_now ht
      pc_now := leNow_bump hinv.pc_now ht
      cs_now := leNow_self t
      dp_now := leNow_bump hinv.dp_now ht
      ta_os := hinv.ta_os
      os_oc := hinv.os_oc
      oc_ks := hinv.oc_ks
      ks_ar := hinv.ks_ar
      ar_ad := hinv.ar_ad
      ks_fd := hinv.ks_fd
      fd_ad := hinv.fd_ad
      ad_ds := hinv.ad_ds
      ds_eq_ad := hinv.ds_eq_ad
      ds_dc := hinv.ds_dc
      dc_ps := hinv.dc_ps
      ps_pc := hinv.ps_pc
      pc_cs := ledOpt_set_later (hinv.cl_pc htask) hinv.pc_now ht
      cs_dp := ledOpt_vacuous hinv.cs_dp hg
      otc_ta := hinv.otc_ta
      os_otc := hinv.os_otc
      ord_ks := hinv.ord_ks
      ord_total := hinv.ord_total
      not_ord := hinv.not_ord
      cleared_le := hinv.cleared_le
      dtc_eq := hinv.dtc_eq
      started_le := hinv.started_le
      delivered_le := hinv.delivered_le
      ar_iff := hinv.ar_iff
      ad_iff := hinv.ad_iff
      fd_iff := hinv.fd_iff
      co_dc := hinv.co_dc
      ps_co := hinv.ps_co
      cl_pc := hinv.cl_pc
      cs_cl := fun _ => htask }
  | depart t ht hcs hg =>
    exact {
      ta_now := leNow_bump hinv.ta_now ht
      os_now := leNow_bump hinv.os_now ht
      oc_now := leNow_bump hinv.oc_now ht
      ks_now := leNow_bump hinv.ks_now ht
      ar_now := leNow_bump hinv.ar_now ht
      fd_now := leNow_bump hinv.fd_now ht
      ad_now := leNow_bump hinv.ad_now ht
      ds_now := leNow_bump hinv.ds_now ht
      dc_now := leNow_bump hinv.dc_now ht
      ps_now := leNow_bump hinv.ps_now ht
      pc_now := leNow_bump hinv.pc_now ht
      cs_now := leNow_bump hinv.cs_now ht
      dp_now := leNow_self t
      ta_os := hinv.ta_os
      os_oc := hinv.os_oc
      oc_ks := hinv.oc_ks
      ks_ar := hinv.ks_ar
      ar_ad := hinv.ar_ad
      ks_fd := hinv.ks_fd
      fd_ad := hinv.fd_ad
      ad_ds := hinv.ad_ds
      ds_eq_ad := hinv.ds_eq_ad
      ds_dc := hinv.ds_dc
      dc_ps := hinv.dc_ps
      ps_pc := hinv.ps_pc
      pc_cs := hinv.pc_cs
      cs_dp := ledOpt_set_later hcs hinv.cs_now ht
      otc_ta := hinv.otc_ta
      os_otc := hinv.os_otc
      ord_ks := hinv.ord_ks
      ord_total := hinv.ord_total
      not_ord := hinv.not_ord
      cleared_le := hinv.cleared_le
      dtc_eq := hinv.dtc_eq
      started_le := hinv.started_le
      delivered_le := hinv.delivered_le
      ar_iff := hinv.ar_iff
      ad_iff := hinv.ad_iff
      fd_iff := hinv.fd_iff
      co_dc := hinv.co_dc
      ps_co := hinv.ps_co
      cl_pc := hinv.cl_pc
      cs_cl := hinv.cs_cl }

lemma partyInv_reachable (t0 : ℚ) (s : PartyState) (h : PartyReachable t0 s) :
    PartyInv s := by
  induction h with
  | refl => exact partyInv_init t0
  | tail _ hstep ih => exact partyInv_step _ _ ih hstep

/-- Claim C2 (amended): party timestamps are monotonically non-decreasing,
and a later one is never set while an earlier one is unset, along the chain
table-assigned → ordering-start → ordering-complete → kitchen-start →
all-dishes-ready → all-dishes-delivered → dining-start → dining-complete →
payment-start → payment-complete → cleanup-start → departure; first-delivery
is bracketed by kitchen-start below and all-dishes-delivered above (but, in
contrast with the claim, is not ordered against all-dishes-ready), and
dining-start always carries the all-dishes-delivered value. -/
theorem party_timestamps_monotone (t0 : ℚ) (s : PartyState)
    (h : PartyReachable t0 s) :
    ledOpt s.tableAssigned s.orderingStart ∧
    ledOpt s.orderingStart s.orderingComplete ∧
    ledOpt s.orderingComplete s.kitchenStart ∧
    ledOpt s.kitchenStart s.allDishesReady ∧
    ledOpt s.allDishesReady s.allDishesDelivered ∧
    ledOpt s.allDishesDelivered s.diningStart ∧
    ledOpt s.diningStart s.diningComplete ∧
    ledOpt s.diningComplete s.paymentStart ∧
    ledOpt s.paymentStart s.paymentComplete ∧
    ledOpt s.paymentComplete s.cleanupStart ∧
    ledOpt s.cleanupStart s.departure ∧
    ledOpt s.kitchenStart s.firstDelivery ∧
    ledOpt s.firstDelivery s.allDishesDelivered ∧
    (∀ v, s.diningStart = some v → s.allDishesDelivered = some v) := by
  have hinv := partyInv_reachable t0 s h
  exact ⟨hinv.ta_os, hinv.os_oc, hinv.oc_ks, hinv.ks_ar, hinv.ar_ad, hinv.ad_ds,
    hinv.ds_dc, hinv.dc_ps, hinv.ps_pc, hinv.pc_cs, hinv.cs_dp, hinv.ks_fd,
    hinv.fd_ad, hinv.ds_eq_ad⟩

/-- A party state in which the first dish has been delivered (at time 1)
while the second dish is still in the kitchen. -/
def pcexMid : PartyState :=
  { now := 1, tableAssigned := some 0, orderingTaskCreated := true,
    orderingStart := some 0, orderingComplete := some 0, kitchenStart := some 0,
    totalDishes := 2, orderCreated := true, expoCleared := 1,
    allDishesReady := none, deliveryTasksCreated := 1, deliveriesStarted := 1,
    firstDelivery := some 1, deliveredCount := 0, allDishesDelivered := none,
    diningStart := none, diningComplete := none, checkoutCreated := false,
    paymentStart := none, paymentComplete := none, cleaningCreated := false,
    cleanupStart := none, departure := none }

/-- `pcexMid` after the second dish clears expo at time 2:
`all_dishes_ready = 2` is now later than `first_delivery_time = 1`. -/
def pcex : PartyState :=
  { now := 2, tableAssigned := some 0, orderingTaskCreated := true,
    orderingStart := some 0, orderingComplete := some 0, kitchenStart := some 0,
    totalDishes := 2, orderCreated := true, expoCleared := 2,
    allDishesReady := some 2, deliveryTasksCreated := 2, deliveriesStarted := 1,
    firstDelivery := some 1, deliveredCount := 0, allDishesDelivered := none,
    diningStart := none, diningComplete := none, checkoutCreated := false,
    paymentStart := none, paymentComplete := none, cleaningCreated := false,
    cleanupStart := none, departure := none }

lemma pcexMid_reachable : PartyReachable 0 pcexMid := by
  have h0 : PartyReachable 0 (initParty 0) := Relation.ReflTransGen.refl
  have h1 := Relation.ReflTransGen.tail h0
    (PartyStep.seat (initParty 0) 0 le_rfl rfl)
  have h2 := Relation.ReflTransGen.tail h1
    (PartyStep.createOrderingTask _ 0 le_rfl (Option.some_ne_none 0) rfl)
  have h3 := Relation.ReflTransGen.tail h2
    (PartyStep.startOrdering _ 0 le_rfl rfl rfl)
  have h4 := Relation.ReflTransGen.tail h3
    (PartyStep.completeOrdering _ 0 le_rfl (Option.some_ne_none 0) rfl)
  have h5 := Relation.ReflTransGen.tail h4
    (PartyStep.placeOrder _ 0 2 le_rfl (Option.some_ne_none 0) rfl (by decide))
  have h6 := Relation.ReflTransGen.tail h5
    (PartyStep.expoClear _ 0 le_rfl rfl (by decide))
  have h7 := Relation.ReflTransGen.tail h6
    (PartyStep.startDelivery _ 1 zero_le_one (by decide))
  exact h7

lemma pcex_reachable : PartyReachable 0 pcex := by
  have h8 := Relation.ReflTransGen.tail pcexMid_reachable
    (PartyStep.expoClear pcexMid 2 one_le_two rfl (by decide))
  exact h8

/-- Counterexample to claim C2 as stated: with per-dish immediate delivery
the party's `first_delivery_time` (a later stage in the claimed order) is
set at time 1 while `all_dishes_ready` (an earlier stage) is still `None`,
and subsequently `all_dishes_ready` is recorded at time 2 > 1, violating
monotonicity of the claimed stage order. -/
theorem party_claim_false :
    (PartyReachable 0 pcexMid ∧ pcexMid.firstDelivery = some 1 ∧
      pcexMid.allDishesReady = none) ∧
    (PartyReachable 0 pcex ∧ pcex.allDishesReady = some 2 ∧
      pcex.firstDelivery = some 1 ∧
      ¬ ledOpt pcex.allDishesReady pcex.firstDelivery) := by
  refine ⟨⟨pcexMid_reachable, rfl, rfl⟩, pcex_reachable, rfl, rfl, ?_⟩
  intro hled
  obtain ⟨u, hu, hle⟩ := hled 1 rfl
  have hu2 : (some 2 : Option ℚ) = some u := hu
  rw [Option.some_inj] at hu2
  rw [← hu2] at hle
  norm_num at hle

/-- Witness for `party_timestamps_monotone` at the reachable state `pcex`. -/
theorem party_timestamps_monotone_witness :
    ledOpt pcex.tableAssigned pcex.orderingStart ∧
    ledOpt pcex.orderingStart pcex.orderingComplete ∧
    ledOpt pcex.orderingComplete pcex.kitchenStart ∧
    ledOpt pcex.kitchenStart pcex.allDishesReady ∧
    ledOpt pcex.allDishesReady pcex.allDishesDelivered ∧
    ledOpt pcex.allDishesDelivered pcex.diningStart ∧
    ledOpt pcex.diningStart pcex.diningComplete ∧
    ledOpt pcex.diningComplete pcex.paymentStart ∧
    ledOpt pcex.paymentStart pcex.paymentComplete ∧
    ledOpt pcex.paymentComplete pcex.cleanupStart ∧
    ledOpt pcex.cleanupStart pcex.departure ∧
    ledOpt pcex.kitchenStart pcex.firstDelivery ∧
    ledOpt pcex.firstDelivery pcex.allDishesDelivered ∧
    (∀ v, pcex.diningStart = some v → pcex.allDishesDelivered = some v) :=
  party_timestamps_monotone 0 pcex pcex_reachable

/-- Claim C6: a party's `dining_start` is never set before every dish of its
order has been delivered — when `dining_start` is set, the delivered-dish
count has reached the order's total and `all_dishes_delivered` is set (and
equals `dining_start`); `first_delivery_time` alone never enables dining. -/
theorem dining_requires_all_delivered (t0 : ℚ) (s : PartyState)
    (h : PartyReachable t0 s) (hds : s.diningStart ≠ none) :
    s.allDishesDelivered ≠ none ∧ s.totalDishes ≤ s.deliveredCount ∧
    (∀ v, s.diningStart = some v → s.allDishesDelivered = some v) := by
  have hinv := partyInv_reachable t0 s h
  obtain ⟨v, hv⟩ := Option.ne_none_iff_exists'.1 hds
  have had := hinv.ds_eq_ad v hv
  exact ⟨by rw [had]; simp, (hinv.ad_iff.1 (by rw [had]; simp)).2, hinv.ds_eq_ad⟩

/-- A party state that has reached the dining stage: its single dish was
cleared, delivered, and dining started, all at time 0. -/
def pdine : PartyState :=
  { now := 0, tableAssigned := some 0, orderingTaskCreated := true,
    orderingStart := some 0, orderingComplete := some 0, kitchenStart := some 0,
    totalDishes := 1, orderCreated := true, expoCleared := 1,
    allDishesReady := some 0, deliveryTasksCreated := 1, deliveriesStarted := 1,
    firstDelivery := some 0, deliveredCount := 1, allDishesDelivered := some 0,
    diningStart := some 0, diningComplete := none, checkoutCreated := false,
    paymentStart := none, paymentComplete := none, cleaningCreated := false,
    cleanupStart := none, departure := none }

lemma pdine_reachable : PartyReachable 0 pdine := by
  have h0 : PartyReachable 0 (initParty 0) := Relation.ReflTransGen.refl
  have h1 := Relation.ReflTransGen.tail h0
    (PartyStep.seat (initParty 0) 0 le_rfl rfl)
  have h2 := Relation.ReflTransGen.tail h1
    (PartyStep.createOrderingTask _ 0 le_rfl (Option.some_ne_none 0) rfl)
  have h3 := Relation.ReflTransGen.tail h2
    (PartyStep.startOrdering _ 0 le_rfl rfl rfl)
  have h4 := Relation.ReflTransGen.tail h3
    (PartyStep.completeOrdering _ 0 le_rfl (Option.some_ne_none 0) rfl)
  have h5 := Relation.ReflTransGen.tail h4
    (PartyStep.placeOrder _ 0 1 le_rfl (Option.some_ne_none 0) rfl (by decide))
  have h6 := Relation.ReflTransGen.tail h5
    (PartyStep.expoClear _ 0 le_rfl rfl (by decide))
  have h7 := Relation.ReflTransGen.tail h6
    (PartyStep.startDelivery _ 0 le_rfl (by decide))
  have h8 := Relation.ReflTransGen.tail h7
    (PartyStep.completeDelivery _ 0 le_rfl (by decide))
  have h9 := Relation.ReflTransGen.tail h8
    (PartyStep.startDining _ 0 0 le_rfl rfl rfl)
  exact h9

/-- Witness for `dining_requires_all_delivered` at the reachable state
`pdine`. -/
theorem dining_requires_all_delivered_witness :
    pdine.allDishesDelivered ≠ none ∧ pdine.totalDishes ≤ pdine.deliveredCount ∧
    (∀ v, pdine.diningStart = some v → pdine.allDishesDelivered = some v) :=
  dining_requires_all_delivered 0 pdine pdine_reachable (Option.some_ne_none 0)

/- ## Task registry machine (claim C7)

`_create_ordering_task` / `_create_checkout_task` / `_create_delivery_task`
/ `_create_delivery_task_for_dish` / `_create_cleaning_task` draw a fresh id
from `task_counter`, register the task in `active_tasks`, and append it to
its zone server queue and, for Delivery/Cleaning, to the pooled food-runner
or busser queue.  `_server_zone_dispatcher`, `_food_runner_dispatcher` and
`_busser_dispatcher` pop the queue head; a head whose id is no longer in
`active_tasks` is silently discarded, and an active head is claimed through
`_remove_task_from_queues` before any processing.  The machine records the
claim history as a ghost list of (task id, consumer) pairs. -/

/-- Registry machine state: `task_counter`, the queue/registry state, and
the history of claims made by dispatchers. -/
structure RegState where
  taskCounter : ℕ
  queues : TaskQueues
  claims : List (ℕ × String)

/-- `if zone_id in self.server_zone_queues: self.server_zone_queues[zone_id].append(task)`. -/
def appendZone (qs : List (List PyTask)) (z : ℕ) (t : PyTask) :
    List (List PyTask) :=
  if z < qs.length then qs.set z (qs.getD z [] ++ [t]) else qs

/-- The common body of the `_create_*_task` methods: increment the counter,
register the fresh id, and append the task to its zone queue and, per task
type, to the matching pooled queue. -/
def createTask (s : RegState) (ty : PyTaskType) (z : ℕ) : RegState :=
  let tid := s.taskCounter + 1
  let t : PyTask := ⟨tid, ty, z, none⟩
  { taskCounter := tid
    queues :=
      { activeTasks := s.queues.activeTasks ++ [tid]
        serverZoneQueues := appendZone s.queues.serverZoneQueues z t
        foodRunnerQueue :=
          if ty = PyTaskType.delivery then s.queues.foodRunnerQueue ++ [t]
          else s.queues.foodRunnerQueue
        busserQueue :=
          if ty = PyTaskType.cleaning then s.queues.busserQueue ++ [t]
          else s.queues.busserQueue }
    claims := s.claims }

/-- One transition of the registry: task creation, or a dispatcher popping
its queue head — discarding it if stale, claiming it if still active. -/
inductive RegStep : RegState → RegState → Prop
  | create (s : RegState) (ty : PyTaskType) (z : ℕ) :
      RegStep s (createTask s ty z)
  | discardZone (s : RegState) (z : ℕ) (t : PyTask) (rest : List PyTask)
      (hq : s.queues.serverZoneQueues.getD z [] = t :: rest)
      (hz : z < s.queues.serverZoneQueues.length)
      (hstale : t.id ∉ s.queues.activeTasks) :
      RegStep s
        { s with queues :=
          { s.queues with
            serverZoneQueues := s.queues.serverZoneQueues.set z rest } }
  | claimZone (s : RegState) (z : ℕ) (t : PyTask) (rest : List PyTask)
      (hq : s.queues.serverZoneQueues.getD z [] = t :: rest)
      (hz : z < s.queues.serverZoneQueues.length)
      (hact : t.id ∈ s.queues.activeTasks) :
      RegStep s
        { taskCounter := s.taskCounter
          queues := (removeTaskFromQueues
            { s.queues with
              serverZoneQueues := s.queues.serverZoneQueues.set z rest }
            t ("server_zone_" ++ toString z)).1
          claims := s.claims ++ [(t.id, "server_zone_" ++ toString z)] }
  | discardRunner (s : RegState) (t : PyTask) (rest : List PyTask)
      (hq : s.queues.foodRunnerQueue = t :: rest)
      (hstale : t.id ∉ s.queues.activeTasks) :
      RegStep s
        { s with queues := { s.queues with foodRunnerQueue := rest } }
  | claimRunner (s : RegState) (t : PyTask) (rest : List PyTask)
      (hq : s.queues.foodRunnerQueue = t :: rest)
      (hact : t.id ∈ s.queues.activeTasks) :
      RegStep s
        { taskCounter := s.taskCounter
          queues := (removeTaskFromQueues
            { s.queues with foodRunnerQueue := rest } t "food_runner").1
          claims := s.claims ++ [(t.id, "food_runner")] }
  | discardBusser (s : RegState) (t : PyTask) (rest : List PyTask)
      (hq : s.queues.busserQueue = t :: rest)
      (hstale : t.id ∉ s.queues.activeTasks) :
      RegStep s
        { s with queues := { s.queues with busserQueue := rest } }
  | claimBusser (s : RegState) (t : PyTask) (rest : List PyTask)
      (hq : s.queues.busserQueue = t :: rest)
      (hact : t.id ∈ s.queues.activeTasks) :
      RegStep s
        { taskCounter := s.taskCounter
          queues := (removeTaskFromQueues
            { s.queues with busserQueue := rest } t "busser").1
          claims := s.claims ++ [(t.id, "busser")] }

/-- The engine's initial queue state: no tasks, `nz` empty zone queues. -/
def initReg (nz : ℕ) : RegState :=
  { taskCounter := 0
    queues := { activeTasks := [], serverZoneQueues := List.replicate nz [],
                foodRunnerQueue := [], busserQueue := [] }
    claims := [] }

def RegReachable (nz : ℕ) (s : RegState) : Prop :=
  Relation.ReflTransGen RegStep (initReg nz) s

/-- Inductive invariant of the registry machine. -/
structure RegInv (s : RegState) : Prop where
  active_le : ∀ i ∈ s.queues.activeTasks, i ≤ s.taskCounter
  active_nodup : s.queues.activeTasks.Nodup
  claims_le : ∀ p ∈ s.claims, p.1 ≤ s.taskCounter
  claims_nodup : (s.claims.map Prod.fst).Nodup
  claims_inactive : ∀ p ∈ s.claims, p.1 ∉ s.queues.activeTasks

lemma regInv_init (nz : ℕ) : RegInv (initReg nz) := by
  refine ⟨?_, ?_, ?_, ?_, ?_⟩ <;> simp [initReg]

lemma regInv_create (s : RegState) (ty : PyTaskType) (z : ℕ)
    (hinv : RegInv s) : RegInv (createTask s ty z) := by
  refine ⟨?_, ?_, ?_, ?_, ?_⟩
  · show ∀ i ∈ s.queues.activeTasks ++ [s.taskCounter + 1], i ≤ s.taskCounter + 1
    intro i hi
    rcases List.mem_append.1 hi with h' | h'
    · exact Nat.le_trans (hinv.active_le i h') (Nat.le_succ _)
    · simp at h'
      omega
  · show (s.queues.activeTasks ++ [s.taskCounter + 1]).Nodup
    refine hinv.active_nodup.append (List.nodup_singleton _) ?_
    intro a ha hb
    simp at hb
    have := hinv.active_le a ha
    omega
  · show ∀ p ∈ s.claims, p.1 ≤ s.taskCounter + 1
    exact fun p hp => Nat.le_trans (hinv.claims_le p hp) (Nat.le_succ _)
  · show (s.claims.map Prod.fst).Nodup
    exact hinv.claims_nodup
  · show ∀ p ∈ s.claims, p.1 ∉ s.queues.activeTasks ++ [s.taskCounter + 1]
    intro p hp hmem
    rcases List.mem_append.1 hmem with h' | h'
    · exact hinv.claims_inactive p hp h'
    · simp at h'
      have := hinv.claims_le p hp
      omega

lemma regInv_claim (s : RegState) (t : PyTask) (w : String)
    (hinv : RegInv s) (hact : t.id ∈ s.queues.activeTasks) (s' : RegState)
    (hc : s'.taskCounter = s.taskCounter)
    (ha : s'.queues.activeTasks = s.queues.activeTasks.erase t.id)
    (hcl : s'.claims = s.claims ++ [(t.id, w)]) : RegInv s' := by
  refine ⟨?_, ?_, ?_, ?_, ?_⟩
  · intro i hi
    rw [ha] at hi
    rw [hc]
    exact hinv.active_le i (List.mem_of_mem_erase hi)
  · rw [ha]
    exact hinv.active_nodup.erase _
  · intro p hp
    rw [hcl] at hp
    rw [hc]
    rcases List.mem_append.1 hp with h' | h'
    · exact hinv.claims_le p h'
    · have h'' : p = (t.id, w) := by simpa using h'
      subst h''
      exact hinv.active_le _ hact
  · rw [hcl, List.map_append]
    refine hinv.claims_nodup.append (List.nodup_singleton _) ?_
    intro a ha' hb
    have hb' : a = t.id := by simpa using hb
    obtain ⟨p, hp, hpa⟩ := List.mem_map.1 ha'
    apply hinv.claims_inactive p hp
    rw [hpa, hb']
    exact hact
  · intro p hp
    rw [hcl] at hp
    rw [ha]
    rcases List.mem_append.1 hp with h' | h'
    · intro hmem
      exact hinv.claims_inactive p h' (List.mem_of_mem_erase hmem)
    · have h'' : p = (t.id, w) := by simpa using h'
      subst h''
      intro hmem
      rw [hinv.active_nodup.mem_erase_iff] at hmem
      exact hmem.1 rfl

lemma regInv_step (s s' : RegState) (hinv : RegInv s) (hstep : RegStep s s') :
    RegInv s' := by
  cases hstep with
  | create ty z => exact regInv_create s ty z hinv
  | discardZone z t rest hq hz hstale =>
    exact ⟨hinv.active_le, hinv.active_nodup, hinv.claims_le,
      hinv.claims_nodup, hinv.claims_inactive⟩
  | claimZone z t rest hq hz hact =>
    exact regInv_claim s t _ hinv hact _ rfl rfl rfl
  | discardRunner t rest hq hstale =>
    exact ⟨hinv.active_le, hinv.active_nodup, hinv.claims_le,
      hinv.claims_nodup, hinv.claims_inactive⟩
  | claimRunner t rest hq hact =>
    exact regInv_claim s t _ hinv hact _ rfl rfl rfl
  | discardBusser t rest hq hstale =>
    exact ⟨hinv.active_le, hinv.active_nodup, hinv.claims_le,
      hinv.claims_nodup, hinv.claims_inactive⟩
  | claimBusser t rest hq hact =>
    exact regInv_claim s t _ hinv hact _ rfl rfl rfl

lemma regInv_reachable (nz : ℕ) (s : RegState) (h : RegReachable nz s) :
    RegInv s := by
  induction h with
  | refl => exact regInv_init nz
  | tail _ hstep ih => exact regInv_step _ _ ih hstep

lemma length_filter_fst_le_of_nodup_map (l : List (ℕ × String))
    (h : (l.map Prod.fst).Nodup) (i : ℕ) :
    (l.filter fun p => p.1 = i).length ≤ 1 := by
  induction l with
  | nil => simp
  | cons a l ih =>
    simp only [List.map_cons, List.nodup_cons] at h
    by_cases ha : a.1 = i
    · rw [List.filter_cons_of_pos (by simpa using ha)]
      have hnil : (l.filter fun p => p.1 = i) = [] := by
        rw [List.filter_eq_nil_iff]
        intro p hp hpi
        have hpi' : p.1 = i := by simpa using hpi
        exact h.1 (by rw [ha, ← hpi']; exact List.mem_map_of_mem _ hp)
      rw [hnil]
      simp
    · rw [List.filter_cons_of_neg (by simpa using ha)]
      exact ih h.2

/-- Claim C7: in every reachable registry state — tasks created with fresh
ids registered in the global `active_tasks`, dispatchers popping queue
heads, silently discarding stale ones and claiming through
`_remove_task_from_queues` only heads still registered — every task id is
claimed by at most one consumer: the claim history has pairwise-distinct
task ids (at most one claim records any given id), a claimed id has left the
registry, and the registry never holds duplicate ids. -/
theorem task_claimed_once (nz : ℕ) (s : RegState) (h : RegReachable nz s) :
    (s.claims.map Prod.fst).Nodup ∧
    (∀ i : ℕ, (s.claims.filter fun p => p.1 = i).length ≤ 1) ∧
    (∀ p ∈ s.claims, p.1 ∉ s.queues.activeTasks) ∧
    s.queues.activeTasks.Nodup := by
  have hinv := regInv_reachable nz s h
  exact ⟨hinv.claims_nodup,
    length_filter_fst_le_of_nodup_map s.claims hinv.claims_nodup,
    hinv.claims_inactive, hinv.active_nodup⟩

/-- A registry state reached by creating one delivery task in a one-zone
engine and letting the food runner claim it. -/
def regDemo : RegState :=
  { taskCounter := 1
    queues := { activeTasks := [], serverZoneQueues := [[]],
                foodRunnerQueue := [], busserQueue := [] }
    claims := [(1, "food_runner")] }

lemma regDemo_reachable : RegReachable 1 regDemo := by
  have h0 : RegReachable 1 (initReg 1) := Relation.ReflTransGen.refl
  have h1 := Relation.ReflTransGen.tail h0
    (RegStep.create (initReg 1) PyTaskType.delivery 0)
  have h2 := Relation.ReflTransGen.tail h1
    (RegStep.claimRunner _ ⟨1, PyTaskType.delivery, 0, none⟩ [] rfl (by decide))
  exact h2

/-- Witness for `task_claimed_once` at the reachable state `regDemo`. -/
theorem task_claimed_once_witness :
    (regDemo.claims.map Prod.fst).Nodup ∧
    (∀ i : ℕ, (regDemo.claims.filter fun p => p.1 = i).length ≤ 1) ∧
    (∀ p ∈ regDemo.claims, p.1 ∉ regDemo.queues.activeTasks) ∧
    regDemo.queues.activeTasks.Nodup :=
  task_claimed_once 1 regDemo regDemo_reachable

end RestaurantSim